import Mathlib

/-!
Verification of the routing-protocol engines in `algorithms.py` (distance-vector
and link-state routing over a weighted graph of terminal nodes `h*` and relay
nodes `s*`).

Embedding conventions:
* Python `float` delay/cost values are modelled as exact rationals, with the
  IEEE value `float('inf')` modelled by a dedicated `Cost.inf` constructor.
  (`Cost.val q + Cost.inf = Cost.inf`, and `Cost.inf < Cost.inf` is false,
  matching IEEE comparison/addition of `inf`.)
* Python `dict`s are modelled as association lists in insertion order:
  assignment to an existing key updates it in place, assignment to a fresh key
  appends it.  A `defaultdict(lambda: float('inf'))` read of a missing key
  inserts the default at the end of the dict, which `ddRead` reproduces.
* Node names are `String`s; the comparisons the code performs on them
  (`startswith`, tuple comparison inside `heapq`) are given kernel-computable
  definitions over the underlying character lists.
-/

/-! ### Exact rational addition

`Rat.add` is `@[irreducible]`, so the embedding uses an equivalent
`mkRat`-based addition that the kernel can evaluate on concrete inputs. -/

def qAdd (a b : ℚ) : ℚ := mkRat (a.num * b.den + b.num * a.den) (a.den * b.den)

theorem qAdd_eq (a b : ℚ) : qAdd a b = a + b := by
  have ha : (a.den : ℚ) ≠ 0 := Nat.cast_ne_zero.2 a.den_nz
  have hb : (b.den : ℚ) ≠ 0 := Nat.cast_ne_zero.2 b.den_nz
  rw [qAdd, Rat.mkRat_eq_div]
  push_cast
  conv_rhs => rw [← Rat.num_div_den a, ← Rat.num_div_den b, div_add_div _ _ ha hb]
  ring_nf

/-! ### The cost domain: nonnegative-or-infinite IEEE floats, as `ℚ ∪ {∞}` -/

inductive Cost where
  | val : ℚ → Cost
  | inf : Cost
deriving DecidableEq

/-- Interpretation of `Cost` into Mathlib's `WithTop ℚ`, used to transport
order/arithmetic lemmas; the executable structure stays on `Cost`. -/
def Cost.toW : Cost → WithTop ℚ
  | val a => (a : WithTop ℚ)
  | inf => ⊤

theorem Cost.toW_inj : Function.Injective Cost.toW := by
  intro a b h
  cases a <;> cases b <;> simp [Cost.toW] at h ⊢
  exact h

/-- Computable strict comparison, mirroring IEEE `<` (where `inf < inf` is false). -/
def Cost.bltB : Cost → Cost → Bool
  | val x, val y => decide (x < y)
  | val _, inf => true
  | inf, _ => false

theorem Cost.blt_iff (a b : Cost) : Cost.bltB a b = true ↔ a.toW < b.toW := by
  cases a <;> cases b <;> simp [Cost.bltB, Cost.toW]

theorem Cost.ble_iff (a b : Cost) : Cost.bltB b a = false ↔ a.toW ≤ b.toW := by
  rw [← not_lt, ← Cost.blt_iff b a, Bool.not_eq_true]

instance : LinearOrder Cost where
  le a b := Cost.bltB b a = false
  lt a b := Cost.bltB a b = true
  le_refl a := (Cost.ble_iff a a).2 le_rfl
  le_trans a b c h1 h2 :=
    (Cost.ble_iff a c).2 (le_trans ((Cost.ble_iff a b).1 h1) ((Cost.ble_iff b c).1 h2))
  le_antisymm a b h1 h2 :=
    Cost.toW_inj (le_antisymm ((Cost.ble_iff a b).1 h1) ((Cost.ble_iff b a).1 h2))
  le_total a b := by
    rcases le_total a.toW b.toW with h | h
    exacts [.inl ((Cost.ble_iff a b).2 h), .inr ((Cost.ble_iff b a).2 h)]
  lt_iff_le_not_le a b := by
    change Cost.bltB a b = true ↔ _
    rw [Cost.blt_iff, lt_iff_le_not_le]
    rw [← Cost.ble_iff a b, ← Cost.ble_iff b a]
    simp
  decidableLE a b := instDecidableEqBool _ _
  decidableLT a b := instDecidableEqBool _ _
  decidableEq := inferInstance

theorem Cost.toW_le_iff {a b : Cost} : a.toW ≤ b.toW ↔ a ≤ b := (Cost.ble_iff a b).symm.trans .rfl

theorem Cost.toW_lt_iff {a b : Cost} : a.toW < b.toW ↔ a < b := (Cost.blt_iff a b).symm.trans .rfl

/-- Addition on costs; `inf` absorbs, matching IEEE `inf + x = inf`. -/
def Cost.add : Cost → Cost → Cost
  | val x, val y => val (qAdd x y)
  | _, _ => inf

instance : Add Cost := ⟨Cost.add⟩

theorem Cost.val_add_val (x y : ℚ) : Cost.val x + Cost.val y = Cost.val (x + y) := by
  show Cost.add _ _ = _
  rw [Cost.add, qAdd_eq]

theorem Cost.inf_add (a : Cost) : Cost.inf + a = Cost.inf := rfl

theorem Cost.add_inf (a : Cost) : a + Cost.inf = Cost.inf := by cases a <;> rfl

theorem Cost.toW_add (a b : Cost) : (a + b).toW = a.toW + b.toW := by
  cases a with
  | val x =>
    cases b with
    | val y =>
      rw [Cost.val_add_val]
      exact (WithTop.coe_add x y).symm ▸ rfl
    | inf =>
      rw [Cost.add_inf]
      show (⊤ : WithTop ℚ) = (x : WithTop ℚ) + ⊤
      rw [WithTop.add_top]
  | inf =>
    rw [Cost.inf_add]
    show (⊤ : WithTop ℚ) = ⊤ + b.toW
    rw [WithTop.top_add]

theorem Cost.val_le_val {x y : ℚ} : Cost.val x ≤ Cost.val y ↔ x ≤ y := by
  rw [← Cost.toW_le_iff]
  simp [Cost.toW]

theorem Cost.val_lt_val {x y : ℚ} : Cost.val x < Cost.val y ↔ x < y := by
  rw [← Cost.toW_lt_iff]
  simp [Cost.toW]

theorem Cost.le_inf (a : Cost) : a ≤ Cost.inf := by
  rw [← Cost.toW_le_iff]
  exact le_top

theorem Cost.val_lt_inf (x : ℚ) : Cost.val x < Cost.inf := by
  rw [← Cost.toW_lt_iff]
  exact WithTop.coe_lt_top x

theorem Cost.val_ne_inf (x : ℚ) : Cost.val x ≠ Cost.inf := by intro h; cases h

theorem Cost.le_of_le_val {a : Cost} {y : ℚ} (h : a ≤ Cost.val y) : ∃ x, a = Cost.val x ∧ x ≤ y := by
  cases a with
  | val x => exact ⟨x, rfl, Cost.val_le_val.1 h⟩
  | inf => exact absurd h (not_le.2 (Cost.val_lt_inf y))

theorem Cost.add_mono_left {b c : Cost} (h : b ≤ c) (a : Cost) : a + b ≤ a + c := by
  rw [← Cost.toW_le_iff, Cost.toW_add, Cost.toW_add]
  exact add_le_add_left (Cost.toW_le_iff.2 h) _

theorem Cost.add_mono_right {b c : Cost} (h : b ≤ c) (a : Cost) : b + a ≤ c + a := by
  rw [← Cost.toW_le_iff, Cost.toW_add, Cost.toW_add]
  exact add_le_add_right (Cost.toW_le_iff.2 h) _

theorem Cost.le_add_nonneg {a b : Cost} (h : Cost.val 0 ≤ b) : a ≤ a + b := by
  rw [← Cost.toW_le_iff, Cost.toW_add]
  have h0 : (0 : WithTop ℚ) ≤ b.toW := by
    have h1 := Cost.toW_le_iff.2 h
    simpa [Cost.toW] using h1
  calc a.toW = a.toW + 0 := by rw [add_zero]
  _ ≤ a.toW + b.toW := add_le_add_left h0 _

theorem Cost.nonneg_add {a b : Cost} (ha : Cost.val 0 ≤ a) (hb : Cost.val 0 ≤ b) :
    Cost.val 0 ≤ a + b := by
  calc Cost.val 0 ≤ a := ha
  _ ≤ a + b := Cost.le_add_nonneg hb

theorem Cost.add_assoc' (a b c : Cost) : a + b + c = a + (b + c) := by
  apply Cost.toW_inj
  rw [Cost.toW_add, Cost.toW_add, Cost.toW_add, Cost.toW_add]
  exact add_assoc _ _ _

/-! ### Node-name comparisons the Python code performs -/

/-- Model of Python's `name.startswith(c)` for a single-character prefix. -/
def strStartsWith1 (s : String) (c : Char) : Bool :=
  match s.data with
  | [] => false
  | d :: _ => d = c

/-- Lexicographic comparison of character lists by code point, as Python
compares `str` values. -/
def strLtL : List Char → List Char → Bool
  | [], [] => false
  | [], _ :: _ => true
  | _ :: _, [] => false
  | c :: cs, d :: ds =>
    if c.toNat < d.toNat then true
    else if d.toNat < c.toNat then false
    else strLtL cs ds

/-- Model of Python string `<`. -/
def strLtB (a b : String) : Bool := strLtL a.data b.data

theorem strLtL_asymm : ∀ x y : List Char, strLtL x y = true → strLtL y x = false := by
  intro x
  induction x with
  | nil => intro y _; cases y <;> rfl
  | cons c cs ih =>
    intro y h
    cases y with
    | nil => cases h
    | cons d ds =>
      rw [strLtL] at h ⊢
      by_cases h1 : c.toNat < d.toNat
      · have h2 : ¬ d.toNat < c.toNat := by omega
        simp [h1, h2]
      · by_cases h2 : d.toNat < c.toNat
        · simp [h1, h2] at h
        · simp [h1, h2] at h ⊢
          exact ih ds h

/-! ### Association lists: Python `dict` in insertion order -/

/-- Python `k in d` / `d.get(k)`: lookup of the (unique) binding for `k`. -/
def lookupA {α : Type} : List (String × α) → String → Option α
  | [], _ => none
  | (k, v) :: t, k' => if k = k' then some v else lookupA t k'

/-- Python `d[k] = v`: update in place if present, else append. -/
def setA {α : Type} : List (String × α) → String → α → List (String × α)
  | [], k, v => [(k, v)]
  | (k', v') :: t, k, v => if k' = k then (k', v) :: t else (k', v') :: setA t k v

/-- Read of a `defaultdict(lambda: float('inf'))`: returns the stored value, or
inserts (at the end) and returns `inf` when the key is missing. -/
def ddRead (l : List (String × Cost)) (k : String) : Cost × List (String × Cost) :=
  match lookupA l k with
  | some v => (v, l)
  | none => (Cost.inf, l ++ [(k, Cost.inf)])

/-- The value a `defaultdict(lambda: float('inf'))` associates to `k`. -/
def dVal (l : List (String × Cost)) (k : String) : Cost := (lookupA l k).getD Cost.inf

theorem lookupA_setA_self {α : Type} (l : List (String × α)) (k : String) (v : α) :
    lookupA (setA l k v) k = some v := by
  induction l with
  | nil => simp [setA, lookupA]
  | cons e t ih =>
    obtain ⟨k', v'⟩ := e
    rw [setA]
    by_cases h : k' = k
    · simp [h, lookupA]
    · simp only [if_neg h, lookupA, if_neg h]
      exact ih

theorem lookupA_setA_ne {α : Type} (l : List (String × α)) (k k' : String) (v : α)
    (h : k ≠ k') : lookupA (setA l k v) k' = lookupA l k' := by
  induction l with
  | nil => simp [setA, lookupA, h]
  | cons e t ih =>
    obtain ⟨k₀, v₀⟩ := e
    rw [setA]
    by_cases h0 : k₀ = k
    · subst h0
      simp [lookupA, h]
    · simp only [if_neg h0, lookupA]
      by_cases h1 : k₀ = k'
      · simp [h1]
      · simp only [if_neg h1]
        exact ih

theorem lookupA_append {α : Type} (l₁ l₂ : List (String × α)) (k : String) :
    lookupA (l₁ ++ l₂) k = ((lookupA l₁ k).or (lookupA l₂ k)) := by
  induction l₁ with
  | nil => simp [lookupA]
  | cons e t ih =>
    obtain ⟨k₀, v₀⟩ := e
    by_cases h : k₀ = k <;> simp [lookupA, h, ih]

theorem dVal_setA_self (l : List (String × Cost)) (k : String) (v : Cost) :
    dVal (setA l k v) k = v := by
  rw [dVal, lookupA_setA_self]
  rfl

theorem dVal_setA_ne (l : List (String × Cost)) (k k' : String) (v : Cost) (h : k ≠ k') :
    dVal (setA l k v) k' = dVal l k' := by
  rw [dVal, lookupA_setA_ne _ _ _ _ h]
  rfl

theorem ddRead_fst (l : List (String × Cost)) (k : String) : (ddRead l k).1 = dVal l k := by
  rw [ddRead, dVal]
  cases lookupA l k <;> rfl

theorem lookupA_ddRead (l : List (String × Cost)) (k k' : String) :
    lookupA (ddRead l k).2 k' = if k = k' ∧ lookupA l k' = none then some Cost.inf
      else lookupA l k' := by
  rw [ddRead]
  cases h : lookupA l k with
  | some v =>
    have hn : ¬ (k = k' ∧ lookupA l k' = none) := by
      rintro ⟨rfl, h2⟩
      rw [h] at h2
      cases h2
    simp [hn]
  | none =>
    show lookupA (l ++ [(k, Cost.inf)]) k' = _
    rw [lookupA_append]
    by_cases he : k = k'
    · subst he
      simp [h, lookupA]
    · have hn : ¬ (k = k' ∧ lookupA l k' = none) := fun hc => he hc.1
      simp only [lookupA, if_neg he, if_neg hn, Option.or_none]

theorem dVal_ddRead (l : List (String × Cost)) (k k' : String) :
    dVal (ddRead l k).2 k' = dVal l k' := by
  rw [dVal, dVal, lookupA_ddRead]
  by_cases he : k = k' ∧ lookupA l k' = none
  · simp [he, he.2]
  · simp [he]

theorem keys_setA {α : Type} (l : List (String × α)) (k : String) (v : α) (k' : String) :
    (lookupA (setA l k v) k').isSome ↔ (k = k' ∨ (lookupA l k').isSome) := by
  by_cases h : k = k'
  · subst h
    simp [lookupA_setA_self]
  · rw [lookupA_setA_ne _ _ _ _ h]
    simp [h]

theorem keys_ddRead (l : List (String × Cost)) (k k' : String) :
    (lookupA (ddRead l k).2 k').isSome ↔ (k = k' ∨ (lookupA l k').isSome) := by
  rw [lookupA_ddRead]
  by_cases h1 : k = k'
  · subst h1
    cases h2 : lookupA l k with
    | none => simp [h2]
    | some v => simp [h2]
  · simp [h1]

/-! ### Delay-string parsing (`float(delay.replace('ms', ''))`) -/

/-- Model of Python `s.replace('ms', '')`: delete non-overlapping occurrences
of `"ms"` left to right. -/
def stripMsL : List Char → List Char
  | [] => []
  | 'm' :: 's' :: t => stripMsL t
  | c :: t => c :: stripMsL t

def stripMs (s : String) : String := ⟨stripMsL s.data⟩

def digitsToNat (ds : List Char) : Nat := ds.foldl (fun a c => a * 10 + (c.toNat - 48)) 0

/-- Model of CPython's `float()` string parser on plain decimal literals:
optional sign, digits with optional fraction part, optional exponent.  The
value is the exact rational the literal denotes (binary-float rounding is not
modelled, nor are leading/trailing whitespace, digit underscores, or the
`inf`/`infinity`/`nan` forms). -/
def pyFloatL (cs : List Char) : Option ℚ :=
  let sr : ℤ × List Char :=
    match cs with
    | '+' :: t => (1, t)
    | '-' :: t => (-1, t)
    | _ => (1, cs)
  let sgn := sr.1
  let cs1 := sr.2
  let ip := cs1.takeWhile Char.isDigit
  let r1 := cs1.dropWhile Char.isDigit
  let fr : List Char × List Char :=
    match r1 with
    | '.' :: t => (t.takeWhile Char.isDigit, t.dropWhile Char.isDigit)
    | _ => ([], r1)
  let fp := fr.1
  let r2 := fr.2
  if ip.isEmpty && fp.isEmpty then none
  else
    let mant : ℤ := sgn * (digitsToNat (ip ++ fp) : ℤ)
    match r2 with
    | [] => some (mkRat mant (10 ^ fp.length))
    | e :: t =>
      if e = 'e' ∨ e = 'E' then
        let er : Bool × List Char :=
          match t with
          | '+' :: t' => (true, t')
          | '-' :: t' => (false, t')
          | _ => (true, t)
        let ed := er.2.takeWhile Char.isDigit
        let r3 := er.2.dropWhile Char.isDigit
        if ed.isEmpty || !r3.isEmpty then none
        else
          let ex := digitsToNat ed
          if er.1 then some (mkRat (mant * 10 ^ ex) (10 ^ fp.length))
          else some (mkRat mant (10 ^ fp.length * 10 ^ ex))
      else none

def pyFloat (s : String) : Option ℚ := pyFloatL s.data

/-- `float(delay.replace('ms', ''))`: the parsed rational, or the raised
`ValueError` (modelled as `Except.error` carrying the offending string). -/
def parseDelay (s : String) : Except String ℚ :=
  match pyFloat (stripMs s) with
  | some q => .ok q
  | none => .error s

/-! ### Topology input -/

/-- One entry of the `link_delays` mapping: a link's two endpoint node names
plus its delay string (e.g. `"3ms"`). -/
structure Link where
  node1 : String
  node2 : String
  delay : String
deriving DecidableEq

/-- `_get_connected_nodes` (identical in `DistanceVector` and `LinkState`):
scan every link, and for each link incident to `name` parse its delay and
append the far endpoint.  The first malformed delay of an incident link
raises (propagates as `Except.error`). -/
def gcnStep (name : String) (acc : Except String (List (String × ℚ))) (l : Link) :
    Except String (List (String × ℚ)) :=
  match acc with
  | .error e => .error e
  | .ok conn =>
    if name = l.node1 then
      match parseDelay l.delay with
      | .ok d => .ok (conn ++ [(l.node2, d)])
      | .error e => .error e
    else if name = l.node2 then
      match parseDelay l.delay with
      | .ok d => .ok (conn ++ [(l.node1, d)])
      | .error e => .error e
    else .ok conn

def getConnectedNodes (links : List Link) (name : String) :
    Except String (List (String × ℚ)) :=
  links.foldl (gcnStep name) (.ok [])

/-! ### DistanceVector -/

structure DVState where
  host : String
  neighbors : List (String × ℚ)
  dv : List (String × Cost)
  nh : List (String × String)
deriving DecidableEq

/-- Body of `_build_topology`'s inner `for next_node, link_delay in connected`
loop: threads (queue, neighbors, distance_vector, next_hop). -/
def dvStep (visited : List String) (curDelay : ℚ)
    (acc : List (String × ℚ) × List (String × ℚ) × List (String × Cost) × List (String × String))
    (conn : String × ℚ) :
    List (String × ℚ) × List (String × ℚ) × List (String × Cost) × List (String × String) :=
  let (queue, neighbors, dv, nh) := acc
  let (nxt, linkDelay) := conn
  let total := qAdd curDelay linkDelay
  let upd :=
    if strStartsWith1 nxt 'h' = true then
      if (match lookupA neighbors nxt with
          | none => true
          | some v => decide (total < v)) = true then
        (setA neighbors nxt total, setA dv nxt (Cost.val total), setA nh nxt nxt)
      else (neighbors, dv, nh)
    else (neighbors, dv, nh)
  let queue' :=
    if strStartsWith1 nxt 's' = true ∧ nxt ∉ visited then queue ++ [(nxt, total)]
    else queue
  (queue', upd)

/-- The `while queue` BFS of `DistanceVector._build_topology`.  The loop always
terminates on the actual inputs (each iteration pops one queue entry, and
entries are only pushed while a fresh node is being visited); the `fuel`
parameter is an upper bound on iterations, generously over-provisioned by
`dvFuel`, and exhaustion is reported as an error so it can never silently
stand in for a result. -/
def dvBuildAux (links : List Link) :
    Nat → List (String × ℚ) → List String →
    List (String × ℚ) × List (String × Cost) × List (String × String) →
    Except String (List (String × ℚ) × List (String × Cost) × List (String × String))
  | 0, _, _, _ => .error "out of fuel"
  | _ + 1, [], _, st => .ok st
  | fuel + 1, (cur, curDelay) :: rest, visited, (neighbors, dv, nh) =>
    if cur ∈ visited then dvBuildAux links fuel rest visited (neighbors, dv, nh)
    else
      let visited' := cur :: visited
      match getConnectedNodes links cur with
      | .error e => .error e
      | .ok connected =>
        let r := connected.foldl (dvStep visited' curDelay) (rest, neighbors, dv, nh)
        dvBuildAux links fuel r.1 visited' r.2

def dvFuel (links : List Link) : Nat := (2 * links.length + 2) * (2 * links.length + 2)

/-- `DistanceVector.__init__`: seed `distance_vector[host] = 0`, then run
`_build_topology`. -/
def dvInit (links : List Link) (hostName : String) : Except String DVState :=
  match dvBuildAux links (dvFuel links) [(hostName, 0)] [] ([], [(hostName, Cost.val 0)], []) with
  | .ok (neighbors, dv, nh) => .ok ⟨hostName, neighbors, dv, nh⟩
  | .error e => .error e

/-- `_create_update_packet`: source name plus a snapshot of the table. -/
structure UpdatePacket where
  source : String
  distances : List (String × Cost)
deriving DecidableEq

def createUpdatePacket (st : DVState) : UpdatePacket := ⟨st.host, st.dv⟩

/-- Body of `_process_update`'s `for dest, cost in received_distances.items()`
loop.  Reading `self.distance_vector[dest]` goes through the defaultdict
(`ddRead`), inserting an explicit `inf` entry when `dest` is missing. -/
def puStep (host source : String) (direct : Cost)
    (acc : List (String × Cost) × List (String × String) × Bool) (e : String × Cost) :
    List (String × Cost) × List (String × String) × Bool :=
  let (dv, nh, upd) := acc
  let (dest, cost) := e
  if dest ≠ host ∧ strStartsWith1 dest 'h' = true then
    let newCost := direct + cost
    let r := ddRead dv dest
    if newCost < r.1 then (setA r.2 dest newCost, setA nh dest source, true)
    else (r.2, nh, upd)
  else acc

/-- `DistanceVector._process_update`. -/
def processUpdate (st : DVState) (pkt : UpdatePacket) : DVState × Bool :=
  let direct : Cost :=
    match lookupA st.neighbors pkt.source with
    | some v => Cost.val v
    | none => Cost.inf
  let r := pkt.distances.foldl (puStep st.host pkt.source direct) (st.dv, st.nh, false)
  ({ st with dv := r.1, nh := r.2.1 }, r.2.2)

/-- `DistanceVector.get_route`. -/
def dvGetRoute (st : DVState) (destination : String) : Option (List String) × Cost :=
  match lookupA st.dv destination with
  | none => (none, Cost.inf)
  | some c => (some [st.host, destination], c)

/-! ### LinkState: data model -/

/-- `self.topology`: a `defaultdict(dict)` mapping node name to its adjacency
dict. -/
abbrev TopDB := List (String × List (String × Cost))

def topGetD (top : TopDB) (k : String) : List (String × Cost) := (lookupA top k).getD []

/-- `self.topology[a][b] = c`: through the defaultdict, a missing outer key is
created (appended) before the inner assignment. -/
def topSet (top : TopDB) (a b : String) (c : Cost) : TopDB :=
  match lookupA top a with
  | some inner => setA top a (setA inner b c)
  | none => top ++ [(a, [(b, c)])]

/-- Every node name mentioned in the database (outer keys and adjacency
keys); the finite universe used for loop termination. -/
def topNames (top : TopDB) : List String :=
  top.foldr (fun e acc => e.1 :: (e.2.map Prod.fst) ++ acc) []

theorem mem_topNames_of_lookupA {top : TopDB} {u : String} {l : List (String × Cost)}
    (h : lookupA top u = some l) : u ∈ topNames top := by
  induction top with
  | nil => cases h
  | cons e t ih =>
    obtain ⟨k, inner⟩ := e
    rw [lookupA] at h
    by_cases hk : k = u
    · subst hk
      exact List.mem_cons_self _ _
    · rw [if_neg hk] at h
      show u ∈ k :: (inner.map Prod.fst ++ topNames t)
      exact List.mem_cons_of_mem _ (List.mem_append_right _ (ih h))

theorem topGetD_eq_nil_of_not_mem {top : TopDB} {u : String} (h : u ∉ topNames top) :
    topGetD top u = [] := by
  rw [topGetD]
  cases hl : lookupA top u with
  | none => rfl
  | some l => exact absurd (mem_topNames_of_lookupA hl) h

theorem length_filter_notMem_cons_le (l : List String) (u : String) (vis : List String) :
    (l.filter fun x => decide (x ∉ u :: vis)).length ≤
      (l.filter fun x => decide (x ∉ vis)).length := by
  induction l with
  | nil => exact le_refl _
  | cons a t ih =>
    rw [List.filter_cons, List.filter_cons]
    simp only [decide_eq_true_eq]
    by_cases h1 : a ∉ u :: vis
    · have h2 : a ∉ vis := fun hm => h1 (List.mem_cons_of_mem u hm)
      rw [if_pos h1, if_pos h2]
      exact Nat.succ_le_succ ih
    · by_cases h2 : a ∉ vis
      · rw [if_neg h1, if_pos h2]
        exact le_trans ih (Nat.le_succ _)
      · rw [if_neg h1, if_neg h2]
        exact ih

theorem length_filter_notMem_cons_lt {l : List String} {u : String} {vis : List String}
    (hu : u ∈ l) (hv : u ∉ vis) :
    (l.filter fun x => decide (x ∉ u :: vis)).length <
      (l.filter fun x => decide (x ∉ vis)).length := by
  induction l with
  | nil => cases hu
  | cons a t ih =>
    rw [List.filter_cons, List.filter_cons]
    simp only [decide_eq_true_eq]
    by_cases ha : a = u
    · subst ha
      have h1 : ¬ (a ∉ a :: vis) := fun h => h (List.mem_cons_self _ _)
      rw [if_neg h1, if_pos hv]
      exact Nat.lt_succ_of_le (length_filter_notMem_cons_le t a vis)
    · have hu' : u ∈ t := by
        cases List.mem_cons.1 hu with
        | inl h => exact absurd h.symm ha
        | inr h => exact h
      by_cases h2 : a ∉ vis
      · have h1 : a ∉ u :: vis := by
          intro hm
          cases List.mem_cons.1 hm with
          | inl h => exact ha h
          | inr h => exact h2 h
        rw [if_pos h1, if_pos h2]
        exact Nat.succ_lt_succ (ih hu')
      · have h1 : ¬ (a ∉ u :: vis) := by
          intro hm
          exact hm (List.mem_cons_of_mem u (not_not.1 h2))
        rw [if_neg h1, if_neg h2]
        exact ih hu'

theorem filter_notMem_cons_of_not_mem {l : List String} {u : String} (vis : List String)
    (hu : u ∉ l) :
    (l.filter fun x => decide (x ∉ u :: vis)) = (l.filter fun x => decide (x ∉ vis)) := by
  apply List.filter_congr
  intro x hx
  have hxu : x ≠ u := fun h => hu (h ▸ hx)
  simp [List.mem_cons, hxu]

/-! ### LinkState: Dijkstra -/

/-- Comparison of `heapq` entries: Python orders `(distance, name)` tuples
lexicographically. -/
def pqLeB (a b : Cost × String) : Bool :=
  Cost.bltB a.1 b.1 || (decide (a.1 = b.1) && !(strLtB b.2 a.2))

/-- `heappush`, modelled on a list kept sorted by `pqLeB`; `heappop` is then
exactly "remove the least `(distance, name)` tuple", which is the observable
behaviour of the binary heap. -/
def pqPush : List (Cost × String) → (Cost × String) → List (Cost × String)
  | [], e => [e]
  | x :: t, e => if pqLeB e x then e :: x :: t else x :: pqPush t e

/-- Body of `_dijkstra`'s `for neighbor, weight in ...items()` loop: skip
visited neighbours, relax the rest (the `distances[neighbor]` read goes
through the defaultdict). -/
def relaxAll (u : String) (d : Cost) (visited : List String) :
    List (String × Cost) →
    List (Cost × String) × List (String × Cost) × List (String × String) →
    List (Cost × String) × List (String × Cost) × List (String × String)
  | [], acc => acc
  | (v, w) :: rest, (pq, dist, prev) =>
    if v ∈ visited then relaxAll u d visited rest (pq, dist, prev)
    else
      let dd := d + w
      let r := ddRead dist v
      if dd < r.1 then
        relaxAll u d visited rest (pqPush pq (dd, v), setA r.2 v dd, setA prev v u)
      else relaxAll u d visited rest (pq, r.2, prev)

/-- The `while pq` loop of `LinkState._dijkstra`: pop the least entry, skip it
if already visited, otherwise visit it and relax its neighbours.  Termination
is genuine (no fuel): each iteration either shrinks the queue or visits a
fresh node of the finite universe `topNames top`. -/
def dijkstraLoop (top : TopDB) :
    List (Cost × String) → List (String × Cost) → List (String × String) → List String →
    List (String × Cost) × List (String × String)
  | [], dist, prev, _ => (dist, prev)
  | (d, u) :: rest, dist, prev, visited =>
    if u ∈ visited then dijkstraLoop top rest dist prev visited
    else
      let acc := relaxAll u d (u :: visited) (topGetD top u) (rest, dist, prev)
      dijkstraLoop top acc.1 acc.2.1 acc.2.2 (u :: visited)
termination_by pq _ _ visited =>
  (((topNames top).filter fun x => decide (x ∉ visited)).length, pq.length)
decreasing_by
  · apply Prod.Lex.right
    exact Nat.lt_succ_self _
  · rename_i hvis
    by_cases hu : u ∈ topNames top
    · exact Prod.Lex.left _ _ (length_filter_notMem_cons_lt hu hvis)
    · have hnil : topGetD top u = [] := topGetD_eq_nil_of_not_mem hu
      have hacc : relaxAll u d (u :: visited) (topGetD top u) (rest, dist, prev) =
          (rest, dist, prev) := by rw [hnil, relaxAll]
      rw [filter_notMem_cons_of_not_mem visited hu, hacc]
      apply Prod.Lex.right
      exact Nat.lt_succ_self _

structure PathInfo where
  path : List String
  cost : Cost
deriving DecidableEq

/-- The `while current in previous` back-trace of `_dijkstra`'s path
reconstruction.  A fuel of `prev.length + 1` covers every acyclic predecessor
map (the only kind the loop above produces; on a cyclic map the Python loop
would not terminate). -/
def traceAux (prev : List (String × String)) : Nat → String → List String → List String
  | 0, _, acc => acc
  | fuel + 1, current, acc =>
    match lookupA prev current with
    | some p => traceAux prev fuel p (acc ++ [current])
    | none => acc

def tracePath (prev : List (String × String)) (host dest : String) : List String :=
  ((traceAux prev (prev.length + 1) dest []) ++ [host]).reverse

/-- The `for dest in distances` rebuild of `self.shortest_paths`: only
destinations other than the host whose name starts with `'h'` get an entry. -/
def buildPaths (host : String) (dist : List (String × Cost)) (prev : List (String × String)) :
    List (String × PathInfo) :=
  dist.foldl
    (fun sp e =>
      if e.1 ≠ host ∧ strStartsWith1 e.1 'h' = true then
        setA sp e.1 ⟨tracePath prev host e.1, dVal dist e.1⟩
      else sp)
    []

/-- `LinkState._dijkstra`: run the loop from `distances = {host: 0}`,
`pq = [(0, host)]`, then rebuild the shortest-path table. -/
def lsDijkstra (top : TopDB) (host : String) : List (String × PathInfo) :=
  let r := dijkstraLoop top [(Cost.val 0, host)] [(host, Cost.val 0)] [] []
  buildPaths host r.1 r.2

/-! ### LinkState: state, LSAs, flooding -/

structure LSA where
  source : String
  seqNum : Nat
  links : List (String × Cost)
deriving DecidableEq

structure LSState where
  host : String
  topology : TopDB
  shortestPaths : List (String × PathInfo)
  seqNum : Nat
deriving DecidableEq

/-- `LinkState._create_lsa`: snapshot of the host's own adjacency dict. -/
def createLsa (st : LSState) : LSA := ⟨st.host, st.seqNum, topGetD st.topology st.host⟩

/-- Body of `_process_lsa`'s merge loop: a `(dest, cost)` edge that is absent
or stored with a different cost is written symmetrically and marks the LSA as
changing. -/
def plStep (source : String) (acc : TopDB × Bool) (e : String × Cost) : TopDB × Bool :=
  let (top, changed) := acc
  let (dest, cost) := e
  if lookupA (topGetD top source) dest ≠ some cost then
    (topSet (topSet top source dest cost) dest source cost, true)
  else (top, changed)

/-- `LinkState._process_lsa`: merge the advertised edges; when anything
changed, recompute `_dijkstra` on the merged database. -/
def processLsa (st : LSState) (lsa : LSA) : LSState :=
  let r := lsa.links.foldl (plStep lsa.source) (st.topology, false)
  if r.2 then { st with topology := r.1, shortestPaths := lsDijkstra r.1 st.host }
  else { st with topology := r.1 }

/-- The `while queue` loop of `LinkState._flood_lsa`, over the emitter's own
topology database.  `net n` models `hasattr(node, 'ls_instance')`.  The
receivers' `_process_lsa` calls cannot influence the flood (it reads only the
emitter's database), so the embedding records the sequence of deliveries.
Termination is genuine: each iteration shrinks the queue or visits a fresh
name of the finite universe `topNames top`. -/
def floodAux (top : TopDB) (net : String → Bool) :
    List String → List String → List String → List String
  | [], _, delivered => delivered.reverse
  | n :: rest, visited, delivered =>
    if n ∈ visited then floodAux top net rest visited delivered
    else if net n then
      let ext := if (lookupA top n).isSome then
          ((topGetD top n).map Prod.fst).filter fun x => decide (x ∉ n :: visited)
        else []
      floodAux top net (rest ++ ext) (n :: visited) (n :: delivered)
    else floodAux top net rest (n :: visited) delivered
termination_by queue visited _ =>
  (((topNames top).filter fun x => decide (x ∉ visited)).length, queue.length)
decreasing_by
  · apply Prod.Lex.right
    exact Nat.lt_succ_self _
  · rename_i hvis _
    by_cases hn : n ∈ topNames top
    · exact Prod.Lex.left _ _ (length_filter_notMem_cons_lt hn hvis)
    · have hsome : (lookupA top n).isSome = false := by
        cases hl : lookupA top n with
        | none => rfl
        | some l => exact absurd (mem_topNames_of_lookupA hl) hn
      rw [filter_notMem_cons_of_not_mem visited hn]
      apply Prod.Lex.right
      simp only [hsome, Bool.false_eq_true, List.length_cons]
      rw [dif_neg id]
      simp only [List.append_nil]
      omega
  · rename_i hvis _
    by_cases hn : n ∈ topNames top
    · exact Prod.Lex.left _ _ (length_filter_notMem_cons_lt hn hvis)
    · rw [filter_notMem_cons_of_not_mem visited hn]
      apply Prod.Lex.right
      exact Nat.lt_succ_self _

/-- `LinkState._flood_lsa`: start from the emitter's known neighbours with the
emitter itself pre-visited; returns the sequence of nodes whose
`_process_lsa` received a (deep-copied) delivery. -/
def floodLsaDeliveries (top : TopDB) (selfName : String) (net : String → Bool) : List String :=
  floodAux top net ((topGetD top selfName).map Prod.fst) [selfName] []

/-- `LinkState.get_route`. -/
def lsGetRoute (sp : List (String × PathInfo)) (destination : String) :
    Option (List String) × Cost :=
  match lookupA sp destination with
  | none => (none, Cost.inf)
  | some pi => (some pi.path, pi.cost)

/-! ### LinkState: initial topology build (`_build_initial_topology`) -/

/-- Body of `_build_initial_topology`'s inner loop: record both directions of
each traversed edge, and enqueue unvisited relays. -/
def lsScanStep (cur : String) (visited : List String) (curDelay : ℚ)
    (acc : List (String × ℚ) × TopDB) (conn : String × ℚ) : List (String × ℚ) × TopDB :=
  let (queue, top) := acc
  let (nxt, linkDelay) := conn
  let top' := topSet (topSet top cur nxt (Cost.val linkDelay)) nxt cur (Cost.val linkDelay)
  let queue' :=
    if strStartsWith1 nxt 's' = true ∧ nxt ∉ visited then queue ++ [(nxt, qAdd curDelay linkDelay)]
    else queue
  (queue', top')

/-- The BFS of `_build_initial_topology`, fueled like `dvBuildAux` (the Python
loop terminates on all actual inputs; exhaustion is an explicit error). -/
def lsBuildAux (links : List Link) :
    Nat → List (String × ℚ) → List String → TopDB → Except String TopDB
  | 0, _, _, _ => .error "out of fuel"
  | _ + 1, [], _, top => .ok top
  | fuel + 1, (cur, curDelay) :: rest, visited, top =>
    if cur ∈ visited then lsBuildAux links fuel rest visited top
    else
      let visited' := cur :: visited
      match getConnectedNodes links cur with
      | .error e => .error e
      | .ok connected =>
        let r := connected.foldl (lsScanStep cur visited' curDelay) (rest, top)
        lsBuildAux links fuel r.1 visited' r.2

/-- `LinkState.__init__`: build the initial topology, then run the first
`_dijkstra`; the sequence number starts at 0. -/
def lsInit (links : List Link) (hostName : String) : Except String LSState :=
  match lsBuildAux links (dvFuel links) [(hostName, 0)] [] [] with
  | .ok top => .ok ⟨hostName, top, lsDijkstra top hostName, 0⟩
  | .error e => .error e

/-! ### Lemmas about `_process_update` -/

theorem puStep_dVal_le (host source : String) (direct : Cost)
    (dv : List (String × Cost)) (nh : List (String × String)) (b : Bool) (e : String × Cost)
    (d : String) :
    dVal (puStep host source direct (dv, nh, b) e).1 d ≤ dVal dv d := by
  obtain ⟨dest, cost⟩ := e
  rw [puStep]
  by_cases hg : dest ≠ host ∧ strStartsWith1 dest 'h' = true
  · rw [if_pos hg]
    by_cases hlt : direct + cost < (ddRead dv dest).1
    · rw [if_pos hlt]
      by_cases hd : dest = d
      · subst hd
        simp only [dVal_setA_self]
        calc direct + cost ≤ (ddRead dv dest).1 := le_of_lt hlt
        _ = dVal dv dest := ddRead_fst dv dest
      · rw [dVal_setA_ne _ _ _ _ hd, dVal_ddRead]
    · rw [if_neg hlt]
      rw [dVal_ddRead]
  · rw [if_neg hg]

theorem puFold_dVal_le (host source : String) (direct : Cost) (l : List (String × Cost)) :
    ∀ (dv : List (String × Cost)) (nh : List (String × String)) (b : Bool) (d : String),
    dVal (l.foldl (puStep host source direct) (dv, nh, b)).1 d ≤ dVal dv d := by
  induction l with
  | nil => intro dv nh b d; exact le_refl _
  | cons e t ih =>
    intro dv nh b d
    rw [List.foldl_cons]
    have hstep := puStep_dVal_le host source direct dv nh b e d
    have htail := ih (puStep host source direct (dv, nh, b) e).1
      (puStep host source direct (dv, nh, b) e).2.1
      (puStep host source direct (dv, nh, b) e).2.2 d
    exact le_trans htail hstep

theorem processUpdate_dVal_le (st : DVState) (pkt : UpdatePacket) (d : String) :
    dVal (processUpdate st pkt).1.dv d ≤ dVal st.dv d :=
  puFold_dVal_le st.host pkt.source _ pkt.distances st.dv st.nh false d

/-- `processUpdate` applied repeatedly (the engine's whole lifetime of
received updates). -/
def applyUpdates (st : DVState) (pkts : List UpdatePacket) : DVState :=
  pkts.foldl (fun s p => (processUpdate s p).1) st

theorem applyUpdates_dVal_le (st : DVState) (pkts : List UpdatePacket) (d : String) :
    dVal (applyUpdates st pkts).dv d ≤ dVal st.dv d := by
  induction pkts generalizing st with
  | nil => exact le_refl _
  | cons p t ih =>
    exact le_trans (ih (processUpdate st p).1) (processUpdate_dVal_le st p d)

theorem ddRead_of_lookup {l : List (String × Cost)} {k : String} {v : Cost}
    (h : lookupA l k = some v) : ddRead l k = (v, l) := by rw [ddRead, h]

theorem puStep_keys (host source : String) (direct : Cost)
    (dv : List (String × Cost)) (nh : List (String × String)) (b : Bool) (e : String × Cost)
    (k : String) (h : (lookupA dv k).isSome = true) :
    (lookupA (puStep host source direct (dv, nh, b) e).1 k).isSome = true := by
  obtain ⟨dest, cost⟩ := e
  rw [puStep]
  by_cases hg : dest ≠ host ∧ strStartsWith1 dest 'h' = true
  · rw [if_pos hg]
    by_cases hlt : direct + cost < (ddRead dv dest).1
    · rw [if_pos hlt]
      show (lookupA (setA (ddRead dv dest).2 dest (direct + cost)) k).isSome = true
      rw [keys_setA]
      exact Or.inr ((keys_ddRead dv dest k).2 (Or.inr h))
    · rw [if_neg hlt]
      exact (keys_ddRead dv dest k).2 (Or.inr h)
  · rw [if_neg hg]
    exact h

theorem puFold_keys (host source : String) (direct : Cost) (l : List (String × Cost)) :
    ∀ dv nh b k, (lookupA dv k).isSome = true →
    (lookupA (l.foldl (puStep host source direct) (dv, nh, b)).1 k).isSome = true := by
  induction l with
  | nil => intro dv nh b k h; exact h
  | cons e t ih =>
    intro dv nh b k h
    rw [List.foldl_cons]
    exact ih (puStep host source direct (dv, nh, b) e).1
      (puStep host source direct (dv, nh, b) e).2.1
      (puStep host source direct (dv, nh, b) e).2.2 k
      (puStep_keys host source direct dv nh b e k h)

theorem puFold_bound (host source : String) (direct : Cost) (l : List (String × Cost)) :
    ∀ dv nh b dest cost, (dest, cost) ∈ l → dest ≠ host → strStartsWith1 dest 'h' = true →
    dVal (l.foldl (puStep host source direct) (dv, nh, b)).1 dest ≤ direct + cost ∧
    (lookupA (l.foldl (puStep host source direct) (dv, nh, b)).1 dest).isSome = true := by
  induction l with
  | nil => intro dv nh b dest cost h; cases h
  | cons e t ih =>
    intro dv nh b dest cost hmem hne hh
    rw [List.foldl_cons]
    cases List.mem_cons.1 hmem with
    | inl he =>
      subst he
      have hstep1 : dVal (puStep host source direct (dv, nh, b) (dest, cost)).1 dest ≤
          direct + cost := by
        rw [puStep, if_pos ⟨hne, hh⟩]
        by_cases hlt : direct + cost < (ddRead dv dest).1
        · rw [if_pos hlt]
          show dVal (setA (ddRead dv dest).2 dest (direct + cost)) dest ≤ _
          rw [dVal_setA_self]
        · rw [if_neg hlt]
          show dVal (ddRead dv dest).2 dest ≤ _
          rw [dVal_ddRead, ← ddRead_fst]
          exact not_lt.1 hlt
      have hstep2 : (lookupA (puStep host source direct (dv, nh, b) (dest, cost)).1 dest).isSome
          = true := by
        rw [puStep, if_pos ⟨hne, hh⟩]
        by_cases hlt : direct + cost < (ddRead dv dest).1
        · rw [if_pos hlt]
          show (lookupA (setA (ddRead dv dest).2 dest (direct + cost)) dest).isSome = true
          rw [lookupA_setA_self]
          rfl
        · rw [if_neg hlt]
          exact (keys_ddRead dv dest dest).2 (Or.inl rfl)
      constructor
      · have htail := puFold_dVal_le host source direct t
          (puStep host source direct (dv, nh, b) (dest, cost)).1
          (puStep host source direct (dv, nh, b) (dest, cost)).2.1
          (puStep host source direct (dv, nh, b) (dest, cost)).2.2 dest
        exact le_trans htail hstep1
      · have htail := puFold_keys host source direct t
          (puStep host source direct (dv, nh, b) (dest, cost)).1
          (puStep host source direct (dv, nh, b) (dest, cost)).2.1
          (puStep host source direct (dv, nh, b) (dest, cost)).2.2 dest hstep2
        exact htail
    | inr ht =>
      exact ih _ _ _ dest cost ht hne hh

theorem puFold_noChange (host source : String) (direct : Cost) (l : List (String × Cost)) :
    ∀ dv nh b,
    (∀ dest cost, (dest, cost) ∈ l → dest ≠ host → strStartsWith1 dest 'h' = true →
      (lookupA dv dest).isSome = true ∧ ¬ direct + cost < dVal dv dest) →
    l.foldl (puStep host source direct) (dv, nh, b) = (dv, nh, b) := by
  induction l with
  | nil => intro dv nh b _; rfl
  | cons e t ih =>
    intro dv nh b hyp
    obtain ⟨dest, cost⟩ := e
    rw [List.foldl_cons]
    have hstep : puStep host source direct (dv, nh, b) (dest, cost) = (dv, nh, b) := by
      rw [puStep]
      by_cases hg : dest ≠ host ∧ strStartsWith1 dest 'h' = true
      · rw [if_pos hg]
        obtain ⟨hsome, hnlt⟩ := hyp dest cost (List.mem_cons_self _ _) hg.1 hg.2
        cases hv : lookupA dv dest with
        | none => rw [hv] at hsome; cases hsome
        | some v =>
          rw [ddRead_of_lookup hv]
          have : ¬ direct + cost < v := by
            rw [dVal, hv] at hnlt
            exact hnlt
          rw [if_neg this]
      · rw [if_neg hg]
    rw [hstep]
    exact ih dv nh b (fun d c hm => hyp d c (List.mem_cons_of_mem _ hm))

theorem puFold_host (host source : String) (direct : Cost) (l : List (String × Cost)) :
    ∀ dv nh b, dVal (l.foldl (puStep host source direct) (dv, nh, b)).1 host = dVal dv host := by
  induction l with
  | nil => intro dv nh b; rfl
  | cons e t ih =>
    intro dv nh b
    rw [List.foldl_cons]
    have hstep : dVal (puStep host source direct (dv, nh, b) e).1 host = dVal dv host := by
      obtain ⟨dest, cost⟩ := e
      rw [puStep]
      by_cases hg : dest ≠ host ∧ strStartsWith1 dest 'h' = true
      · rw [if_pos hg]
        by_cases hlt : direct + cost < (ddRead dv dest).1
        · rw [if_pos hlt]
          show dVal (setA (ddRead dv dest).2 dest (direct + cost)) host = _
          rw [dVal_setA_ne _ _ _ _ hg.1, dVal_ddRead]
        · rw [if_neg hlt]
          exact dVal_ddRead dv dest host
      · rw [if_neg hg]
    calc dVal (t.foldl (puStep host source direct) (puStep host source direct (dv, nh, b) e)).1 host
        = dVal (puStep host source direct (dv, nh, b) e).1 host := by
          have := ih (puStep host source direct (dv, nh, b) e).1
            (puStep host source direct (dv, nh, b) e).2.1
            (puStep host source direct (dv, nh, b) e).2.2
          exact this
    _ = dVal dv host := hstep

theorem puFold_infDirect (host source : String) (l : List (String × Cost)) :
    ∀ dv nh b, (l.foldl (puStep host source Cost.inf) (dv, nh, b)).2.1 = nh ∧
      (l.foldl (puStep host source Cost.inf) (dv, nh, b)).2.2 = b ∧
      ∀ d, dVal (l.foldl (puStep host source Cost.inf) (dv, nh, b)).1 d = dVal dv d := by
  induction l with
  | nil => intro dv nh b; exact ⟨rfl, rfl, fun d => rfl⟩
  | cons e t ih =>
    intro dv nh b
    obtain ⟨dest, cost⟩ := e
    rw [List.foldl_cons]
    have hstep : puStep host source Cost.inf (dv, nh, b) (dest, cost) =
        ((ddRead dv dest).2, nh, b) ∨
        puStep host source Cost.inf (dv, nh, b) (dest, cost) = (dv, nh, b) := by
      rw [puStep]
      by_cases hg : dest ≠ host ∧ strStartsWith1 dest 'h' = true
      · rw [if_pos hg]
        have hnlt : ¬ (Cost.inf + cost < (ddRead dv dest).1) := by
          rw [Cost.inf_add]
          exact not_lt.2 (Cost.le_inf _)
        rw [if_neg hnlt]
        exact Or.inl rfl
      · rw [if_neg hg]
        exact Or.inr rfl
    cases hstep with
    | inl h =>
      rw [h]
      obtain ⟨h1, h2, h3⟩ := ih (ddRead dv dest).2 nh b
      exact ⟨h1, h2, fun d => (h3 d).trans (dVal_ddRead dv dest d)⟩
    | inr h =>
      rw [h]
      exact ih dv nh b

/-- Unfolding equation for `processUpdate` (the `let`s made explicit). -/
theorem processUpdate_def (st : DVState) (pkt : UpdatePacket) :
    processUpdate st pkt =
      ({ st with
          dv := (pkt.distances.foldl (puStep st.host pkt.source
            (match lookupA st.neighbors pkt.source with
              | some v => Cost.val v
              | none => Cost.inf)) (st.dv, st.nh, false)).1,
          nh := (pkt.distances.foldl (puStep st.host pkt.source
            (match lookupA st.neighbors pkt.source with
              | some v => Cost.val v
              | none => Cost.inf)) (st.dv, st.nh, false)).2.1 },
        (pkt.distances.foldl (puStep st.host pkt.source
          (match lookupA st.neighbors pkt.source with
            | some v => Cost.val v
            | none => Cost.inf)) (st.dv, st.nh, false)).2.2) := rfl

theorem processUpdate_of_noChange (st : DVState) (pkt : UpdatePacket)
    (h : pkt.distances.foldl (puStep st.host pkt.source
        (match lookupA st.neighbors pkt.source with
          | some v => Cost.val v
          | none => Cost.inf)) (st.dv, st.nh, false) = (st.dv, st.nh, false)) :
    processUpdate st pkt = (st, false) := by
  rw [processUpdate_def st pkt, h]

/-! ### Claim theorems: distance-vector table behaviour -/

/-- C3: across a single `processUpdate` call, and across any sequence of such
calls, the cost a distance-vector engine records for any destination never
increases (entries change only when a strictly smaller candidate arrives). -/
theorem dv_cost_monotone_c3 (st : DVState) (pkt : UpdatePacket) (pkts : List UpdatePacket)
    (dest : String) :
    dVal (processUpdate st pkt).1.dv dest ≤ dVal st.dv dest ∧
    dVal (applyUpdates st pkts).dv dest ≤ dVal st.dv dest :=
  ⟨processUpdate_dVal_le st pkt dest, applyUpdates_dVal_le st pkts dest⟩

/-- C4: once an UpdatePacket has been processed, processing the identical
packet again returns the same state unchanged together with the "no change"
result `false`. -/
theorem processUpdate_idempotent_c4 (st : DVState) (pkt : UpdatePacket) :
    processUpdate (processUpdate st pkt).1 pkt = ((processUpdate st pkt).1, false) := by
  apply processUpdate_of_noChange
  apply puFold_noChange
  intro dest cost hm hne hh
  have hb := puFold_bound st.host pkt.source
    (match lookupA st.neighbors pkt.source with
      | some v => Cost.val v
      | none => Cost.inf) pkt.distances st.dv st.nh false dest cost hm hne hh
  exact ⟨hb.2, not_lt.2 hb.1⟩

/-- C10 (amended): an update from a source that is not a known neighbour
reports "no change" (`false`) and alters no cost value and no next hop; the
only effect is that the defaultdict read may add explicit `inf` entries for
advertised destinations that were previously absent (so the key set of the
distance table can grow, which `dvGetRoute` can observe). -/
theorem dv_unknown_source_c10 (st : DVState) (pkt : UpdatePacket)
    (h : lookupA st.neighbors pkt.source = none) :
    (processUpdate st pkt).2 = false ∧
    (processUpdate st pkt).1.nh = st.nh ∧
    (processUpdate st pkt).1.host = st.host ∧
    (processUpdate st pkt).1.neighbors = st.neighbors ∧
    ∀ d, dVal (processUpdate st pkt).1.dv d = dVal st.dv d := by
  rw [processUpdate_def st pkt, h]
  have hf := puFold_infDirect st.host pkt.source pkt.distances st.dv st.nh false
  exact ⟨hf.2.1, hf.1, rfl, rfl, hf.2.2⟩

/-- C10, the original claim refuted: with source `"h9"` unknown to the
engine, processing a packet advertising `"h3"` returns `false` but the
distance table itself is not left unchanged — it gains an explicit
`("h3", inf)` entry, observable through `dvGetRoute`. -/
theorem dv_unknown_source_c10_cex :
    lookupA ([("h2", (1 : ℚ))]) "h9" = none ∧
    (processUpdate ⟨"h1", [("h2", 1)], [("h1", Cost.val 0)], []⟩
        ⟨"h9", [("h3", Cost.val 2)]⟩).2 = false ∧
    (processUpdate ⟨"h1", [("h2", 1)], [("h1", Cost.val 0)], []⟩
        ⟨"h9", [("h3", Cost.val 2)]⟩).1.dv ≠ [("h1", Cost.val 0)] ∧
    dvGetRoute (processUpdate ⟨"h1", [("h2", 1)], [("h1", Cost.val 0)], []⟩
        ⟨"h9", [("h3", Cost.val 2)]⟩).1 "h3" = (some ["h1", "h3"], Cost.inf) := by
  refine ⟨rfl, rfl, ?_, rfl⟩
  decide

theorem dv_unknown_source_c10_witness :
    lookupA ([("h2", (1 : ℚ))]) "h9" = none ∧
    ((processUpdate ⟨"h1", [("h2", 1)], [("h1", Cost.val 0)], []⟩
        ⟨"h9", [("h3", Cost.val 2)]⟩).2 = false ∧
      (processUpdate ⟨"h1", [("h2", 1)], [("h1", Cost.val 0)], []⟩
          ⟨"h9", [("h3", Cost.val 2)]⟩).1.nh = [] ∧
      (processUpdate ⟨"h1", [("h2", 1)], [("h1", Cost.val 0)], []⟩
          ⟨"h9", [("h3", Cost.val 2)]⟩).1.host = "h1" ∧
      (processUpdate ⟨"h1", [("h2", 1)], [("h1", Cost.val 0)], []⟩
          ⟨"h9", [("h3", Cost.val 2)]⟩).1.neighbors = [("h2", 1)] ∧
      ∀ d, dVal (processUpdate ⟨"h1", [("h2", 1)], [("h1", Cost.val 0)], []⟩
          ⟨"h9", [("h3", Cost.val 2)]⟩).1.dv d = dVal [("h1", Cost.val 0)] d) :=
  ⟨rfl, dv_unknown_source_c10 ⟨"h1", [("h2", 1)], [("h1", Cost.val 0)], []⟩
    ⟨"h9", [("h3", Cost.val 2)]⟩ rfl⟩

/-! ### Claim theorems: route queries -/

/-- C7: for both engines, querying a destination that is absent from the
table returns the unreachable sentinel `(none, inf)`.  Both `get_route`
embeddings are total functions, so no exception can be raised. -/
theorem route_unknown_c7 (st : DVState) (sp : List (String × PathInfo)) (d : String)
    (h1 : lookupA st.dv d = none) (h2 : lookupA sp d = none) :
    dvGetRoute st d = (none, Cost.inf) ∧ lsGetRoute sp d = (none, Cost.inf) := by
  constructor
  · simp only [dvGetRoute, h1]
  · simp only [lsGetRoute, h2]

theorem route_unknown_c7_witness :
    lookupA [("h1", Cost.val 0)] "h9" = none ∧
    lookupA ([] : List (String × PathInfo)) "h9" = none ∧
    (dvGetRoute ⟨"h1", [], [("h1", Cost.val 0)], []⟩ "h9" = (none, Cost.inf) ∧
      lsGetRoute [] "h9" = (none, Cost.inf)) :=
  ⟨by decide, rfl,
    route_unknown_c7 ⟨"h1", [], [("h1", Cost.val 0)], []⟩ [] "h9" (by decide) rfl⟩

/-- C8: for a destination present in the distance table, `get_route` returns
the pair `([self, destination], storedCost)`; the returned path always has
length 2, whatever the real forwarding chain is. -/
theorem dv_route_known_c8 (st : DVState) (d : String) (c : Cost)
    (h : lookupA st.dv d = some c) :
    dvGetRoute st d = (some [st.host, d], c) ∧ [st.host, d].length = 2 := by
  constructor
  · simp only [dvGetRoute, h]
  · rfl

theorem dv_route_known_c8_witness :
    lookupA [("h1", Cost.val 0), ("h2", Cost.val 7)] "h2" = some (Cost.val 7) ∧
    (dvGetRoute ⟨"h1", [("h2", 7)], [("h1", Cost.val 0), ("h2", Cost.val 7)], [("h2", "h2")]⟩ "h2" =
        (some ["h1", "h2"], Cost.val 7) ∧
      (["h1", "h2"] : List String).length = 2) :=
  ⟨by decide,
    dv_route_known_c8 ⟨"h1", [("h2", 7)], [("h1", Cost.val 0), ("h2", Cost.val 7)], [("h2", "h2")]⟩
      "h2" (Cost.val 7) (by decide)⟩

/-! ### Claim theorems: the self entry (C1) -/

theorem buildPaths_fold_host (host : String) (dist : List (String × Cost))
    (prev : List (String × String)) (l : List (String × Cost)) :
    ∀ acc : List (String × PathInfo), lookupA acc host = none →
    lookupA (l.foldl (fun sp e => if e.1 ≠ host ∧ strStartsWith1 e.1 'h' = true then
      setA sp e.1 (PathInfo.mk (tracePath prev host e.1) (dVal dist e.1)) else sp) acc) host
      = none := by
  induction l with
  | nil => intro acc h; exact h
  | cons e t ih =>
    intro acc h
    rw [List.foldl_cons]
    apply ih
    by_cases hg : e.1 ≠ host ∧ strStartsWith1 e.1 'h' = true
    · rw [if_pos hg, lookupA_setA_ne _ _ _ _ hg.1]
      exact h
    · rw [if_neg hg]
      exact h

/-- The rebuilt `shortest_paths` never contains the host itself. -/
theorem lsDijkstra_no_self (top : TopDB) (host : String) :
    lookupA (lsDijkstra top host) host = none :=
  buildPaths_fold_host host
    (dijkstraLoop top [(Cost.val 0, host)] [(host, Cost.val 0)] [] []).1
    (dijkstraLoop top [(Cost.val 0, host)] [(host, Cost.val 0)] [] []).2
    (dijkstraLoop top [(Cost.val 0, host)] [(host, Cost.val 0)] [] []).1 [] rfl

/-- C1 (amended): the self entry is protected against `processUpdate` (which
skips `dest == self`), so update processing never alters it; but the
link-state shortest-path store never holds an entry for the node itself —
`_dijkstra` filters out `dest == self` — so querying `route(self)` yields the
unreachable sentinel, not `([self], 0)`.  (And, per the counterexample,
`_build_topology` can overwrite the seeded 0 when the node reaches itself
back through a relay.) -/
theorem self_entry_c1 (st : DVState) (pkt : UpdatePacket) (top : TopDB) (hostName : String) :
    dVal (processUpdate st pkt).1.dv st.host = dVal st.dv st.host ∧
    lookupA (lsDijkstra top hostName) hostName = none ∧
    lsGetRoute (lsDijkstra top hostName) hostName = (none, Cost.inf) := by
  refine ⟨puFold_host st.host pkt.source _ pkt.distances st.dv st.nh false, lsDijkstra_no_self top hostName, ?_⟩
  simp only [lsGetRoute, lsDijkstra_no_self top hostName]

/-- C1, the original claim refuted: constructing a `DistanceVector` for `h1`
on the topology `h1 --3ms-- s1 --4ms-- h2` leaves `distance_vector["h1"] = 6`
(the BFS reaches `h1` back through `s1` and overwrites the seeded 0). -/
theorem self_entry_c1_cex :
    (dvInit [⟨"h1", "s1", "3ms"⟩, ⟨"s1", "h2", "4ms"⟩] "h1").toOption.map
        (fun st => dVal st.dv "h1") = some (Cost.val 6) ∧
    Cost.val 6 ≠ Cost.val 0 := by
  constructor
  · decide
  · decide

/-! ### Claim theorems: delay parsing (C9) -/

theorem gcnFold_error (name : String) (l : List Link) (e : String) :
    l.foldl (gcnStep name) (.error e) = .error e := by
  induction l with
  | nil => rfl
  | cons lk t ih =>
    rw [List.foldl_cons]
    exact ih

theorem gcnFold_error_iff (name : String) (l : List Link) :
    ∀ acc : List (String × ℚ),
    ((∃ e, l.foldl (gcnStep name) (.ok acc) = .error e) ↔
      ∃ lk ∈ l, (name = lk.node1 ∨ name = lk.node2) ∧ pyFloat (stripMs lk.delay) = none) := by
  induction l with
  | nil =>
    intro acc
    constructor
    · rintro ⟨e, he⟩
      cases he
    · rintro ⟨lk, hm, _⟩
      cases hm
  | cons lk t ih =>
    intro acc
    rw [List.foldl_cons]
    by_cases h1 : name = lk.node1
    · cases hp : pyFloat (stripMs lk.delay) with
      | some d =>
        have hstep : gcnStep name (.ok acc) lk = .ok (acc ++ [(lk.node2, d)]) := by
          rw [gcnStep, if_pos h1, parseDelay, hp]
        rw [hstep]
        rw [ih]
        constructor
        · rintro ⟨lk', hm, hcond⟩
          exact ⟨lk', List.mem_cons_of_mem _ hm, hcond⟩
        · rintro ⟨lk', hm, hcond⟩
          cases List.mem_cons.1 hm with
          | inl he =>
            subst he
            rw [hp] at hcond
            cases hcond.2
          | inr hm' => exact ⟨lk', hm', hcond⟩
      | none =>
        have hstep : gcnStep name (.ok acc) lk = .error lk.delay := by
          rw [gcnStep, if_pos h1, parseDelay, hp]
        rw [hstep, gcnFold_error]
        constructor
        · intro _
          exact ⟨lk, List.mem_cons_self _ _, Or.inl h1, hp⟩
        · intro _
          exact ⟨lk.delay, rfl⟩
    · by_cases h2 : name = lk.node2
      · cases hp : pyFloat (stripMs lk.delay) with
        | some d =>
          have hstep : gcnStep name (.ok acc) lk = .ok (acc ++ [(lk.node1, d)]) := by
            rw [gcnStep, if_neg h1, if_pos h2, parseDelay, hp]
          rw [hstep]
          rw [ih]
          constructor
          · rintro ⟨lk', hm, hcond⟩
            exact ⟨lk', List.mem_cons_of_mem _ hm, hcond⟩
          · rintro ⟨lk', hm, hcond⟩
            cases List.mem_cons.1 hm with
            | inl he =>
              subst he
              rw [hp] at hcond
              cases hcond.2
            | inr hm' => exact ⟨lk', hm', hcond⟩
        | none =>
          have hstep : gcnStep name (.ok acc) lk = .error lk.delay := by
            rw [gcnStep, if_neg h1, if_pos h2, parseDelay, hp]
          rw [hstep, gcnFold_error]
          constructor
          · intro _
            exact ⟨lk, List.mem_cons_self _ _, Or.inr h2, hp⟩
          · intro _
            exact ⟨lk.delay, rfl⟩
      · have hstep : gcnStep name (.ok acc) lk = .ok acc := by
          rw [gcnStep, if_neg h1, if_neg h2]
        rw [hstep, ih]
        constructor
        · rintro ⟨lk', hm, hcond⟩
          exact ⟨lk', List.mem_cons_of_mem _ hm, hcond⟩
        · rintro ⟨lk', hm, hcond⟩
          cases List.mem_cons.1 hm with
          | inl he =>
            subst he
            cases hcond.1 with
            | inl h => exact absurd h h1
            | inr h => exact absurd h h2
          | inr hm' => exact ⟨lk', hm', hcond⟩

/-- C9 (amended): topology-view construction parses each incident link's
delay by deleting every occurrence of `"ms"` and feeding the remainder to
`float()`; it raises a parse error exactly when some incident link's stripped
remainder is not a parseable float literal.  A malformed remainder is never
silently treated as a zero cost — but strings that are not `number + "ms"`
can still be accepted (see the counterexample). -/
theorem parse_error_c9 (links : List Link) (name : String) :
    (∃ e, getConnectedNodes links name = .error e) ↔
    (∃ l ∈ links, (name = l.node1 ∨ name = l.node2) ∧ pyFloat (stripMs l.delay) = none) :=
  gcnFold_error_iff name links []

/-- C9, the original claim refuted: `"1ms2ms"` is not a number followed by
the `"ms"` suffix, yet construction does not fail — `replace('ms', '')`
deletes both occurrences and `float("12")` parses it as cost 12. -/
theorem parse_error_c9_cex :
    (¬ ∃ t : String, "1ms2ms" = t ++ "ms" ∧ (pyFloat t).isSome = true) ∧
    (getConnectedNodes [⟨"h1", "h2", "1ms2ms"⟩] "h1").toOption = some [("h2", 12)] ∧
    ((dvInit [⟨"h1", "h2", "1ms2ms"⟩] "h1").toOption.map fun st => dVal st.dv "h2") =
      some (Cost.val 12) := by
  refine ⟨?_, by decide, by decide⟩
  rintro ⟨t, heq, hsome⟩
  have h7 := congrArg String.data heq
  rw [String.data_append] at h7
  rw [show ("1ms2ms").data = ['1', 'm', 's', '2', 'm', 's'] from rfl] at h7
  rw [show ("ms").data = ['m', 's'] from rfl] at h7
  have h8 : ['1', 'm', 's', '2'] ++ ['m', 's'] = t.data ++ ['m', 's'] := h7
  have h9 : t.data = ['1', 'm', 's', '2'] := ((List.append_inj' h8 rfl).1).symm
  have h10 : pyFloat t = none := by
    rw [pyFloat, h9]
    decide
  rw [h10] at hsome
  cases hsome

/-! ### Claim theorems: LSA round trip (C5) -/

theorem lookupA_eq_none {α : Type} {l : List (String × α)} {k : String}
    (h : k ∉ l.map Prod.fst) : lookupA l k = none := by
  induction l with
  | nil => rfl
  | cons e t ih =>
    obtain ⟨k0, v0⟩ := e
    rw [lookupA]
    have hk : k0 ≠ k := by
      intro he
      exact h (by rw [List.map_cons]; exact he ▸ List.mem_cons_self _ _)
    rw [if_neg hk]
    exact ih (fun hm => h (by rw [List.map_cons]; exact List.mem_cons_of_mem _ hm))

theorem lookupA_of_mem_nodup {α : Type} {l : List (String × α)} {k : String} {v : α}
    (hnd : (l.map Prod.fst).Nodup) (hm : (k, v) ∈ l) : lookupA l k = some v := by
  induction l with
  | nil => cases hm
  | cons e t ih =>
    obtain ⟨k0, v0⟩ := e
    rw [List.map_cons, List.nodup_cons] at hnd
    rw [lookupA]
    cases List.mem_cons.1 hm with
    | inl he =>
      have hk : k0 = k := (congrArg Prod.fst he).symm
      have hv : v0 = v := (congrArg Prod.snd he).symm
      rw [if_pos hk, hv]
    | inr ht =>
      by_cases hk : k0 = k
      · subst hk
        exact absurd (List.mem_map.2 ⟨(k0, v), ht, rfl⟩) hnd.1
      · rw [if_neg hk]
        exact ih hnd.2 ht

theorem topSet_lookup_self (top : TopDB) (a b : String) (c : Cost) (k : String) :
    lookupA (topGetD (topSet top a b c) a) k =
      if b = k then some c else lookupA (topGetD top a) k := by
  rw [topSet]
  cases h : lookupA top a with
  | some inner =>
    have hg : topGetD (setA top a (setA inner b c)) a = setA inner b c := by
      rw [topGetD, lookupA_setA_self]
      rfl
    rw [hg]
    by_cases hb : b = k
    · subst hb
      rw [lookupA_setA_self, if_pos rfl]
    · rw [lookupA_setA_ne _ _ _ _ hb, if_neg hb, topGetD, h]
      rfl
  | none =>
    have hg : topGetD (top ++ [(a, [(b, c)])]) a = [(b, c)] := by
      rw [topGetD, lookupA_append, h]
      show (lookupA [(a, [(b, c)])] a).getD [] = [(b, c)]
      rw [lookupA, if_pos rfl]
      rfl
    have hold : topGetD top a = [] := by
      rw [topGetD, h]
      rfl
    rw [hg, hold]
    by_cases hb : b = k
    · simp [lookupA, hb]
    · simp [lookupA, hb]

theorem topSet_lookup_other (top : TopDB) (a b : String) (c : Cost) (x : String) (hx : x ≠ a) :
    topGetD (topSet top a b c) x = topGetD top x := by
  rw [topSet]
  cases h : lookupA top a with
  | some inner =>
    rw [topGetD, lookupA_setA_ne _ _ _ _ (Ne.symm hx), topGetD]
  | none =>
    rw [topGetD, lookupA_append]
    have h2 : lookupA [(a, [(b, c)])] x = none := by
      rw [lookupA, if_neg (Ne.symm hx)]
      rfl
    rw [h2, Option.or_none, topGetD]

theorem plStep_true (src : String) (top : TopDB) (ch : Bool) (d0 : String) (c0 : Cost)
    (h : lookupA (topGetD top src) d0 ≠ some c0) :
    plStep src (top, ch) (d0, c0) = (topSet (topSet top src d0 c0) d0 src c0, true) := by
  rw [plStep, if_pos h]

theorem plStep_false (src : String) (top : TopDB) (ch : Bool) (d0 : String) (c0 : Cost)
    (h : lookupA (topGetD top src) d0 = some c0) :
    plStep src (top, ch) (d0, c0) = (top, ch) := by
  rw [plStep, if_neg (fun hc => hc h)]

theorem plFold_preserve (src : String) (l : List (String × Cost)) :
    ∀ (top : TopDB) (ch : Bool) (x : String), x ≠ src → x ∉ l.map Prod.fst →
    topGetD ((l.foldl (plStep src) (top, ch)).1) x = topGetD top x := by
  induction l with
  | nil => intro top ch x _ _; rfl
  | cons e t ih =>
    intro top ch x hxs hxl
    obtain ⟨d0, c0⟩ := e
    have hxd : x ≠ d0 := by
      intro he
      exact hxl (by rw [List.map_cons]; exact he ▸ List.mem_cons_self _ _)
    have hxt : x ∉ t.map Prod.fst :=
      fun hm => hxl (by rw [List.map_cons]; exact List.mem_cons_of_mem _ hm)
    rw [List.foldl_cons]
    by_cases hc : lookupA (topGetD top src) d0 = some c0
    · rw [plStep_false src top ch d0 c0 hc]
      exact ih top ch x hxs hxt
    · rw [plStep_true src top ch d0 c0 hc]
      rw [ih _ _ x hxs hxt]
      rw [topSet_lookup_other _ _ _ _ _ hxd, topSet_lookup_other _ _ _ _ _ hxs]

theorem plFold_src (src : String) (l : List (String × Cost)) :
    ∀ (top : TopDB) (ch : Bool), src ∉ l.map Prod.fst → (l.map Prod.fst).Nodup →
    ∀ d, lookupA (topGetD ((l.foldl (plStep src) (top, ch)).1) src) d =
      (lookupA l d).or (lookupA (topGetD top src) d) := by
  induction l with
  | nil => intro top ch _ _ d; rfl
  | cons e t ih =>
    intro top ch hsrc hnd d
    obtain ⟨d0, c0⟩ := e
    rw [List.map_cons, List.nodup_cons] at hnd
    have hsd : src ≠ d0 := by
      intro he
      exact hsrc (by rw [List.map_cons]; exact he ▸ List.mem_cons_self _ _)
    have hst : src ∉ t.map Prod.fst :=
      fun hm => hsrc (by rw [List.map_cons]; exact List.mem_cons_of_mem _ hm)
    rw [List.foldl_cons]
    by_cases hc : lookupA (topGetD top src) d0 = some c0
    · rw [plStep_false src top ch d0 c0 hc, ih top ch hst hnd.2 d, lookupA]
      by_cases hd : d0 = d
      · subst hd
        rw [if_pos rfl, lookupA_eq_none hnd.1, hc]
        rfl
      · rw [if_neg hd]
    · rw [plStep_true src top ch d0 c0 hc, ih _ _ hst hnd.2 d]
      have hmid : topGetD (topSet (topSet top src d0 c0) d0 src c0) src =
          topGetD (topSet top src d0 c0) src :=
        topSet_lookup_other _ _ _ _ _ hsd
      rw [hmid, topSet_lookup_self, lookupA]
      by_cases hd : d0 = d
      · subst hd
        rw [if_pos rfl, if_pos rfl, lookupA_eq_none hnd.1]
        rfl
      · rw [if_neg hd, if_neg hd]

theorem plFold_rev (src : String) (l : List (String × Cost)) :
    ∀ (top : TopDB) (ch : Bool), src ∉ l.map Prod.fst → (l.map Prod.fst).Nodup →
    (∀ d', d' ∈ l.map Prod.fst → lookupA (topGetD top src) d' = none) →
    ∀ d c, (d, c) ∈ l →
    lookupA (topGetD ((l.foldl (plStep src) (top, ch)).1) d) src = some c := by
  induction l with
  | nil => intro top ch _ _ _ d c hm; cases hm
  | cons e t ih =>
    intro top ch hsrc hnd hclean d c hm
    obtain ⟨d0, c0⟩ := e
    rw [List.map_cons, List.nodup_cons] at hnd
    have hsd : src ≠ d0 := by
      intro he
      exact hsrc (by rw [List.map_cons]; exact he ▸ List.mem_cons_self _ _)
    have hst : src ∉ t.map Prod.fst :=
      fun hm' => hsrc (by rw [List.map_cons]; exact List.mem_cons_of_mem _ hm')
    have hc0 : lookupA (topGetD top src) d0 = none :=
      hclean d0 (by rw [List.map_cons]; exact List.mem_cons_self _ _)
    have hcne : lookupA (topGetD top src) d0 ≠ some c0 := by rw [hc0]; exact fun h => by cases h
    rw [List.foldl_cons, plStep_true src top ch d0 c0 hcne]
    cases List.mem_cons.1 hm with
    | inl he =>
      have hk : d = d0 := congrArg Prod.fst he
      have hv : c = c0 := congrArg Prod.snd he
      subst hk
      subst hv
      rw [plFold_preserve src t _ true d (Ne.symm hsd) hnd.1]
      rw [topSet_lookup_self, if_pos rfl]
    | inr ht =>
      apply ih _ true hst hnd.2 _ d c ht
      intro d' hd'
      have hd0 : d' ≠ d0 := by
        intro he
        exact hnd.1 (he ▸ hd')
      rw [topSet_lookup_other _ _ _ _ _ hsd, topSet_lookup_self, if_neg (Ne.symm hd0)]
      exact hclean d' (by rw [List.map_cons]; exact List.mem_cons_of_mem _ hd')

theorem processLsa_topology (st : LSState) (lsa : LSA) :
    (processLsa st lsa).topology =
      (lsa.links.foldl (plStep lsa.source) (st.topology, false)).1 := by
  unfold processLsa
  dsimp only
  split
  · rfl
  · rfl

/-- C5 (amended): processing the LSA produced by `createLsa` guarantees that
the receiver's database, under the sender's name, contains every edge of the
sender's direct-link snapshot cost-for-cost; edges previously recorded under
the sender's name survive, so the set need not be exactly the snapshot.  If
the receiver previously had no edges recorded under the sender's name, the
entry is exactly the snapshot and every symmetric reverse entry is written as
well.  (An advertised edge that already matches under the sender's name is
skipped entirely, so its reverse entry is not touched.) -/
theorem lsa_roundtrip_c5 (A B : LSState)
    (hnd : ((createLsa A).links.map Prod.fst).Nodup)
    (hself : A.host ∉ (createLsa A).links.map Prod.fst) :
    (∀ d c, (d, c) ∈ (createLsa A).links →
      lookupA (topGetD (processLsa B (createLsa A)).topology A.host) d = some c) ∧
    (topGetD B.topology A.host = [] →
      (∀ d, lookupA (topGetD (processLsa B (createLsa A)).topology A.host) d =
        lookupA (createLsa A).links d) ∧
      ∀ d c, (d, c) ∈ (createLsa A).links →
        lookupA (topGetD (processLsa B (createLsa A)).topology d) A.host = some c) := by
  have hsrc : (createLsa A).source = A.host := rfl
  constructor
  · intro d c hm
    rw [processLsa_topology, hsrc]
    rw [plFold_src A.host (createLsa A).links B.topology false hself hnd d]
    rw [lookupA_of_mem_nodup hnd hm]
    rfl
  · intro hclean
    constructor
    · intro d
      rw [processLsa_topology, hsrc]
      rw [plFold_src A.host (createLsa A).links B.topology false hself hnd d]
      rw [hclean]
      show ((lookupA (createLsa A).links d).or (lookupA [] d)) = _
      rw [lookupA, Option.or_none]
    · intro d c hm
      rw [processLsa_topology, hsrc]
      apply plFold_rev A.host (createLsa A).links B.topology false hself hnd _ d c hm
      intro d' _
      rw [hclean]
      rfl

/-- C5, the original claim refuted: a receiver that already recorded the edge
`h1 -- h3` under `h1`'s name keeps it after processing `h1`'s LSA, so the
entry under the sender's name is a strict superset of the sender's
direct-link set, not exactly equal to it. -/
theorem lsa_roundtrip_c5_cex :
    lookupA (topGetD (processLsa ⟨"h4", [("h1", [("h3", Cost.val 5)])], [], 0⟩
        (createLsa ⟨"h1", [("h1", [("h2", Cost.val 3)])], [], 0⟩)).topology "h1") "h3" =
      some (Cost.val 5) ∧
    lookupA (createLsa (⟨"h1", [("h1", [("h2", Cost.val 3)])], [], 0⟩ : LSState)).links "h3" =
      none := by
  constructor
  · decide
  · decide

theorem lsa_roundtrip_c5_witness :
    (((createLsa (⟨"h1", [("h1", [("h2", Cost.val 3)])], [], 0⟩ : LSState)).links.map
        Prod.fst).Nodup ∧
      "h1" ∉ ((createLsa (⟨"h1", [("h1", [("h2", Cost.val 3)])], [], 0⟩ : LSState)).links.map
        Prod.fst)) ∧
    ((∀ d c, (d, c) ∈ (createLsa (⟨"h1", [("h1", [("h2", Cost.val 3)])], [], 0⟩ : LSState)).links →
      lookupA (topGetD (processLsa ⟨"h4", [], [], 0⟩
        (createLsa ⟨"h1", [("h1", [("h2", Cost.val 3)])], [], 0⟩)).topology "h1") d = some c) ∧
    (topGetD (⟨"h4", [], [], 0⟩ : LSState).topology "h1" = [] →
      (∀ d, lookupA (topGetD (processLsa ⟨"h4", [], [], 0⟩
        (createLsa ⟨"h1", [("h1", [("h2", Cost.val 3)])], [], 0⟩)).topology "h1") d =
        lookupA (createLsa (⟨"h1", [("h1", [("h2", Cost.val 3)])], [], 0⟩ : LSState)).links d) ∧
      ∀ d c, (d, c) ∈ (createLsa (⟨"h1", [("h1", [("h2", Cost.val 3)])], [], 0⟩ : LSState)).links →
        lookupA (topGetD (processLsa ⟨"h4", [], [], 0⟩
          (createLsa ⟨"h1", [("h1", [("h2", Cost.val 3)])], [], 0⟩)).topology d) "h1" = some c)) :=
  ⟨⟨by decide, by decide⟩,
    lsa_roundtrip_c5 ⟨"h1", [("h1", [("h2", Cost.val 3)])], [], 0⟩ ⟨"h4", [], [], 0⟩
      (by decide) (by decide)⟩

/-! ### Claim theorems: LSA flooding over a full mesh (C6) -/

/-- The link-state database an emitter holds on an N-node fully connected
mesh of terminals: its own entry lists every other node, and (from the
symmetric edge recording of the topology build) every other node's entry
lists the emitter back.  `_build_initial_topology` produces exactly this on a
mesh, since its BFS enqueues only relay (`s*`) nodes and a mesh has none. -/
def meshDB (selfName : String) (others : List (String × Cost)) : TopDB :=
  (selfName, others) :: others.map (fun o => (o.1, [(selfName, o.2)]))

theorem meshMap_lookup (s : String) (others : List (String × Cost)) (n : String)
    (hn : n ∈ others.map Prod.fst) :
    ∃ c, lookupA (others.map (fun o => (o.1, [(s, o.2)]))) n = some [(s, c)] := by
  induction others with
  | nil => cases hn
  | cons e t ih =>
    rw [List.map_cons, lookupA]
    by_cases he : e.1 = n
    · rw [if_pos he]
      exact ⟨e.2, rfl⟩
    · rw [if_neg he]
      apply ih
      rw [List.map_cons] at hn
      cases List.mem_cons.1 hn with
      | inl h => exact absurd h.symm he
      | inr h => exact h

theorem meshDB_lookup_other (s : String) (others : List (String × Cost)) (n : String)
    (hn : n ∈ others.map Prod.fst) (hs : s ∉ others.map Prod.fst) :
    ∃ c, lookupA (meshDB s others) n = some [(s, c)] := by
  have hsn : s ≠ n := fun he => hs (he ▸ hn)
  rw [meshDB, lookupA, if_neg hsn]
  exact meshMap_lookup s others n hn

theorem floodAux_mesh (s : String) (others : List (String × Cost)) :
    ∀ (rest visited delivered : List String),
    (∀ n ∈ rest, n ∉ visited) → rest.Nodup → s ∈ visited →
    (∀ n ∈ rest, ∃ c, lookupA (meshDB s others) n = some [(s, c)]) →
    floodAux (meshDB s others) (fun _ => true) rest visited delivered =
      delivered.reverse ++ rest := by
  intro rest
  induction rest with
  | nil =>
    intro visited delivered _ _ _ _
    rw [floodAux, List.append_nil]
  | cons n t ih =>
    intro visited delivered hvis hnd hs hlk
    have hn : n ∉ visited := hvis n (List.mem_cons_self _ _)
    obtain ⟨c, hc⟩ := hlk n (List.mem_cons_self _ _)
    have hg : topGetD (meshDB s others) n = [(s, c)] := by
      rw [topGetD, hc]
      rfl
    have hsome : (lookupA (meshDB s others) n).isSome = true := by rw [hc]; rfl
    have hext : (if (lookupA (meshDB s others) n).isSome = true then
        ((topGetD (meshDB s others) n).map Prod.fst).filter
          (fun x => decide (x ∉ n :: visited)) else []) = [] := by
      rw [if_pos hsome, hg]
      show List.filter _ [s] = []
      rw [List.filter_cons]
      have hdec : decide (s ∉ n :: visited) = false := by
        simp only [decide_eq_false_iff_not, not_not]
        exact List.mem_cons_of_mem n hs
      rw [hdec]
      rfl
    rw [floodAux, if_neg hn]
    rw [if_pos (rfl : (fun (_ : String) => true) n = true)]
    rw [hext]
    show floodAux (meshDB s others) (fun _ => true) (t ++ []) (n :: visited) (n :: delivered) =
      delivered.reverse ++ n :: t
    rw [List.append_nil]
    rw [List.nodup_cons] at hnd
    rw [ih (n :: visited) (n :: delivered)
      (fun m hm => by
        intro hmem
        cases List.mem_cons.1 hmem with
        | inl he => exact hnd.1 (he ▸ hm)
        | inr hv => exact hvis m (List.mem_cons_of_mem n hm) hv)
      hnd.2 (List.mem_cons_of_mem n hs)
      (fun m hm => hlk m (List.mem_cons_of_mem n hm))]
    rw [List.reverse_cons, List.append_assoc, List.singleton_append]

/-- C6: a single `_flood_lsa` pass terminates (the flood loop is defined by
well-founded recursion on the emitter's finite database, with no fuel), and
over an N-node fully connected mesh in which every node has a registered
link-state engine, every node other than the emitter receives exactly one
`_process_lsa` delivery — the delivery sequence is exactly the emitter's
neighbour list, each name once. -/
theorem flood_mesh_c6 (selfName : String) (others : List (String × Cost))
    (hnd : (others.map Prod.fst).Nodup) (hself : selfName ∉ others.map Prod.fst) :
    floodLsaDeliveries (meshDB selfName others) selfName (fun _ => true) =
      others.map Prod.fst ∧
    ∀ n ∈ others.map Prod.fst,
      (floodLsaDeliveries (meshDB selfName others) selfName (fun _ => true)).count n = 1 := by
  have hq : (topGetD (meshDB selfName others) selfName).map Prod.fst = others.map Prod.fst := by
    rw [meshDB, topGetD, lookupA, if_pos rfl]
    rfl
  have h1 : floodLsaDeliveries (meshDB selfName others) selfName (fun _ => true) =
      others.map Prod.fst := by
    rw [floodLsaDeliveries, hq]
    have h2 := floodAux_mesh selfName others (others.map Prod.fst) [selfName] []
      (fun n hn => by
        intro hmem
        cases List.mem_cons.1 hmem with
        | inl he => exact hself (he ▸ hn)
        | inr hv => cases hv)
      hnd (List.mem_cons_self _ _)
      (fun n hn => meshDB_lookup_other selfName others n hn hself)
    rw [h2]
    rfl
  refine ⟨h1, fun n hn => ?_⟩
  rw [h1]
  exact List.count_eq_one_of_mem hnd hn

theorem flood_mesh_c6_witness :
    ((["h2", "h3"] : List String).Nodup ∧ "h1" ∉ (["h2", "h3"] : List String)) ∧
    (floodLsaDeliveries (meshDB "h1" [("h2", Cost.val 1), ("h3", Cost.val 2)]) "h1"
        (fun _ => true) = ["h2", "h3"] ∧
      ∀ n ∈ (["h2", "h3"] : List String),
        (floodLsaDeliveries (meshDB "h1" [("h2", Cost.val 1), ("h3", Cost.val 2)]) "h1"
          (fun _ => true)).count n = 1) :=
  ⟨⟨by decide, by decide⟩,
    flood_mesh_c6 "h1" [("h2", Cost.val 1), ("h3", Cost.val 2)] (by decide) (by decide)⟩

/-! ### Graphs, walks and simple paths (for C2) -/

theorem Cost.zero_add' (a : Cost) : Cost.val 0 + a = a := by
  cases a with
  | val q => rw [Cost.val_add_val, zero_add]
  | inf => rfl

theorem Cost.add_zero' (a : Cost) : a + Cost.val 0 = a := by
  cases a with
  | val q => rw [Cost.val_add_val, add_zero]
  | inf => rfl

theorem Cost.le_add_nonneg_left {a b : Cost} (h : Cost.val 0 ≤ b) : a ≤ b + a := by
  rw [← Cost.toW_le_iff, Cost.toW_add]
  have h0 : (0 : WithTop ℚ) ≤ b.toW := by
    have h1 := Cost.toW_le_iff.2 h
    simpa [Cost.toW] using h1
  calc a.toW = 0 + a.toW := by rw [zero_add]
  _ ≤ b.toW + a.toW := add_le_add_right h0 _

theorem lookupA_mem {α : Type} : ∀ {l : List (String × α)} {k : String} {v : α},
    lookupA l k = some v → (k, v) ∈ l := by
  intro l
  induction l with
  | nil => intro k v h; cases h
  | cons e t ih =>
    intro k v h
    obtain ⟨k0, v0⟩ := e
    rw [lookupA] at h
    by_cases hk : k0 = k
    · rw [if_pos hk] at h
      subst hk
      cases h
      exact List.mem_cons_self _ _
    · rw [if_neg hk] at h
      exact List.mem_cons_of_mem _ (ih h)

/-- The weight the database records for the directed edge `u → v` (the value
`self.topology[u][v]`), if present. -/
def edgeCost (top : TopDB) (u v : String) : Option Cost := lookupA (topGetD top u) v

/-- A walk in the database: a nonempty vertex sequence whose consecutive
pairs are edges. -/
def IsWalkB (top : TopDB) : List String → Bool
  | [] => false
  | [_] => true
  | a :: b :: rest => (edgeCost top a b).isSome && IsWalkB top (b :: rest)

/-- The sum of the edge weights along a vertex sequence. -/
def walkCost (top : TopDB) : List String → Cost
  | [] => Cost.val 0
  | [_] => Cost.val 0
  | a :: b :: rest => (edgeCost top a b).getD Cost.inf + walkCost top (b :: rest)

/-- A walk from `a` to `v`. -/
def WalkFT (top : TopDB) (a v : String) (p : List String) : Prop :=
  IsWalkB top p = true ∧ p.head? = some a ∧ p.getLast? = some v

/-- A simple path (walk with no repeated vertex) from `s` to `t`. -/
def SimplePath (top : TopDB) (s t : String) (p : List String) : Prop :=
  IsWalkB top p = true ∧ p.head? = some s ∧ p.getLast? = some t ∧ p.Nodup

instance (top : TopDB) (s t : String) (p : List String) : Decidable (SimplePath top s t p) := by
  unfold SimplePath
  infer_instance

/-- Every edge weight in the database is a finite nonnegative value. -/
def topOKB (top : TopDB) : Bool :=
  top.all fun e => e.2.all fun p =>
    match p.2 with
    | Cost.val q => decide (0 ≤ q)
    | Cost.inf => false

/-- Every adjacency dict has unique keys (true of every Python-`dict`-derived
database). -/
def innerNodupB (top : TopDB) : Bool :=
  top.all fun e => decide (e.2.map Prod.fst).Nodup

/-- The database is symmetric: every recorded edge is recorded in the other
direction with the same cost (the "full undirected link graph" shape). -/
def topSymB (top : TopDB) : Bool :=
  top.all fun e => e.2.all fun p => decide (edgeCost top p.1 e.1 = some p.2)

theorem edge_ok {top : TopDB} (hok : topOKB top = true) {u v : String} {c : Cost}
    (h : edgeCost top u v = some c) : ∃ q : ℚ, c = Cost.val q ∧ 0 ≤ q := by
  rw [edgeCost, topGetD] at h
  cases hl : lookupA top u with
  | none => rw [hl] at h; cases h
  | some inner =>
    rw [hl] at h
    have hm1 : (u, inner) ∈ top := lookupA_mem hl
    have hm2 : (v, c) ∈ inner := lookupA_mem h
    have h1 := (List.all_eq_true.1 hok) _ hm1
    have h2 := (List.all_eq_true.1 h1) _ hm2
    cases c with
    | val q => exact ⟨q, rfl, by simpa using h2⟩
    | inf => simp at h2

theorem inner_nodup {top : TopDB} (hnd : innerNodupB top = true) (u : String) :
    ((topGetD top u).map Prod.fst).Nodup := by
  rw [topGetD]
  cases hl : lookupA top u with
  | none => exact List.nodup_nil
  | some inner =>
    have hm1 : (u, inner) ∈ top := lookupA_mem hl
    have h1 := (List.all_eq_true.1 hnd) _ hm1
    simpa using h1

theorem isWalk_snoc (top : TopDB) :
    ∀ (xs : List String) (z v : String), xs.getLast? = some z →
    (IsWalkB top (xs ++ [v]) = true ↔
      (IsWalkB top xs = true ∧ (edgeCost top z v).isSome = true)) := by
  intro xs
  induction xs with
  | nil => intro z v h; cases h
  | cons x xs' ih =>
    intro z v h
    cases xs' with
    | nil =>
      rw [List.getLast?_singleton] at h
      cases h
      show IsWalkB top [x, v] = true ↔ _
      simp [IsWalkB]
    | cons y t =>
      rw [List.getLast?_cons_cons] at h
      show IsWalkB top (x :: y :: (t ++ [v])) = true ↔ _
      rw [IsWalkB]
      have h2 := ih z v h
      rw [show (y :: t) ++ [v] = y :: (t ++ [v]) from rfl] at h2
      rw [Bool.and_eq_true, h2, IsWalkB, Bool.and_eq_true]
      tauto

theorem walkCost_snoc (top : TopDB) :
    ∀ (xs : List String) (z v : String), xs.getLast? = some z →
    walkCost top (xs ++ [v]) = walkCost top xs + (edgeCost top z v).getD Cost.inf := by
  intro xs
  induction xs with
  | nil => intro z v h; cases h
  | cons x xs' ih =>
    intro z v h
    cases xs' with
    | nil =>
      rw [List.getLast?_singleton] at h
      cases h
      show walkCost top [x, v] = _
      rw [walkCost, walkCost, walkCost]
      rw [Cost.add_zero', Cost.zero_add']
    | cons y t =>
      rw [List.getLast?_cons_cons] at h
      show walkCost top (x :: y :: (t ++ [v])) = _
      rw [walkCost]
      have h2 := ih z v h
      rw [show (y :: t) ++ [v] = y :: (t ++ [v]) from rfl] at h2
      rw [h2, walkCost, ← Cost.add_assoc']

theorem isWalk_append_split (top : TopDB) :
    ∀ (xs : List String) (y : String) (ys : List String),
    IsWalkB top (xs ++ y :: ys) = true →
    IsWalkB top (xs ++ [y]) = true ∧ IsWalkB top (y :: ys) = true := by
  intro xs
  induction xs with
  | nil =>
    intro y ys h
    exact ⟨rfl, h⟩
  | cons x xs' ih =>
    intro y ys h
    cases xs' with
    | nil =>
      rw [show ([x] ++ y :: ys) = x :: y :: ys from rfl, IsWalkB, Bool.and_eq_true] at h
      constructor
      · show IsWalkB top [x, y] = true
        rw [IsWalkB, Bool.and_eq_true]
        exact ⟨h.1, rfl⟩
      · exact h.2
    | cons x' t =>
      rw [show ((x :: x' :: t) ++ y :: ys) = x :: (x' :: (t ++ y :: ys)) from rfl,
        IsWalkB, Bool.and_eq_true] at h
      have h2 := ih y ys h.2
      constructor
      · rw [show ((x :: x' :: t) ++ [y]) = x :: (x' :: (t ++ [y])) from rfl, IsWalkB,
          Bool.and_eq_true]
        exact ⟨h.1, h2.1⟩
      · exact h2.2

theorem isWalk_append_join (top : TopDB) :
    ∀ (xs : List String) (y : String) (ys : List String),
    IsWalkB top (xs ++ [y]) = true → IsWalkB top (y :: ys) = true →
    IsWalkB top (xs ++ y :: ys) = true := by
  intro xs
  induction xs with
  | nil => intro y ys _ h2; exact h2
  | cons x xs' ih =>
    intro y ys h1 h2
    cases xs' with
    | nil =>
      rw [show ([x] ++ [y]) = x :: y :: ([] : List String) from rfl, IsWalkB,
        Bool.and_eq_true] at h1
      rw [show ([x] ++ y :: ys) = x :: y :: ys from rfl, IsWalkB, Bool.and_eq_true]
      exact ⟨h1.1, h2⟩
    | cons x' t =>
      rw [show ((x :: x' :: t) ++ [y]) = x :: (x' :: (t ++ [y])) from rfl, IsWalkB,
        Bool.and_eq_true] at h1
      rw [show ((x :: x' :: t) ++ y :: ys) = x :: (x' :: (t ++ y :: ys)) from rfl, IsWalkB,
        Bool.and_eq_true]
      refine ⟨h1.1, ?_⟩
      rw [show (x' :: (t ++ y :: ys)) = (x' :: t) ++ y :: ys from rfl]
      apply ih y ys _ h2
      rw [show ((x' :: t) ++ [y]) = x' :: (t ++ [y]) from rfl]
      exact h1.2

theorem walkCost_append (top : TopDB) :
    ∀ (xs : List String) (y : String) (ys : List String),
    walkCost top (xs ++ y :: ys) = walkCost top (xs ++ [y]) + walkCost top (y :: ys) := by
  intro xs
  induction xs with
  | nil =>
    intro y ys
    show walkCost top (y :: ys) = walkCost top [y] + _
    rw [walkCost, Cost.zero_add']
  | cons x xs' ih =>
    intro y ys
    cases xs' with
    | nil =>
      show walkCost top (x :: y :: ys) = walkCost top [x, y] + walkCost top (y :: ys)
      rw [walkCost, walkCost, walkCost, Cost.add_zero']
    | cons x' t =>
      show walkCost top (x :: (x' :: (t ++ y :: ys))) = walkCost top (x :: (x' :: (t ++ [y]))) + _
      rw [walkCost, walkCost]
      rw [show (x' :: (t ++ y :: ys)) = (x' :: t) ++ y :: ys from rfl]
      rw [ih y ys]
      rw [← Cost.add_assoc']
      rfl

theorem walkCost_fin_nonneg {top : TopDB} (hok : topOKB top = true) :
    ∀ p : List String, IsWalkB top p = true →
    ∃ q : ℚ, walkCost top p = Cost.val q ∧ 0 ≤ q := by
  intro p
  induction p with
  | nil => intro h; cases h
  | cons a t ih =>
    intro h
    cases t with
    | nil => exact ⟨0, rfl, le_refl 0⟩
    | cons b t' =>
      rw [IsWalkB, Bool.and_eq_true] at h
      obtain ⟨q2, hq2, hq2n⟩ := ih h.2
      cases hc : edgeCost top a b with
      | none => rw [hc] at h; cases h.1
      | some c =>
        obtain ⟨q1, hq1, hq1n⟩ := edge_ok hok hc
        refine ⟨q1 + q2, ?_, by positivity⟩
        rw [walkCost, hc, hq2]
        subst hq1
        show Cost.val q1 + Cost.val q2 = _
        rw [Cost.val_add_val]

theorem walkCost_nonneg {top : TopDB} (hok : topOKB top = true) {p : List String}
    (h : IsWalkB top p = true) : Cost.val 0 ≤ walkCost top p := by
  obtain ⟨q, hq, hqn⟩ := walkCost_fin_nonneg hok p h
  rw [hq]
  exact Cost.val_le_val.2 hqn

theorem walk_first_unvisited (visited : List String) :
    ∀ p : List String, (∃ x ∈ p, x ∉ visited) →
    ∃ p₁ y p₂, p = p₁ ++ y :: p₂ ∧ (∀ x ∈ p₁, x ∈ visited) ∧ y ∉ visited := by
  intro p
  induction p with
  | nil => rintro ⟨x, hx, _⟩; cases hx
  | cons a t ih =>
    rintro ⟨x, hx, hxv⟩
    by_cases ha : a ∈ visited
    · have hxt : x ∈ t := by
        cases List.mem_cons.1 hx with
        | inl he => exact absurd (he ▸ ha) hxv
        | inr ht => exact ht
      obtain ⟨p₁, y, p₂, heq, hall, hy⟩ := ih ⟨x, hxt, hxv⟩
      exact ⟨a :: p₁, y, p₂, by rw [heq]; rfl,
        fun z hz => by
          cases List.mem_cons.1 hz with
          | inl he => exact he ▸ ha
          | inr hm => exact hall z hm, hy⟩
    · exact ⟨[], a, t, rfl, fun z hz => absurd hz (List.not_mem_nil z), ha⟩

theorem exists_dup_split : ∀ {p : List String}, ¬ p.Nodup →
    ∃ a l₁ l₂ l₃, p = l₁ ++ (a :: (l₂ ++ (a :: l₃))) := by
  intro p
  induction p with
  | nil => intro h; exact absurd List.nodup_nil h
  | cons x t ih =>
    intro h
    rw [List.nodup_cons] at h
    by_cases hx : x ∈ t
    · obtain ⟨s, r, hsr⟩ := List.mem_iff_append.mp hx
      exact ⟨x, [], s, r, by rw [hsr]; rfl⟩
    · have hnt : ¬ t.Nodup := fun hnd => h ⟨hx, hnd⟩
      obtain ⟨a, l₁, l₂, l₃, heq⟩ := ih hnt
      exact ⟨a, x :: l₁, l₂, l₃, by rw [heq]; rfl⟩

theorem walk_to_simple {top : TopDB} (hok : topOKB top = true) :
    ∀ (n : Nat) (p : List String) (s v : String), p.length ≤ n → WalkFT top s v p →
    ∃ p', SimplePath top s v p' ∧ walkCost top p' ≤ walkCost top p := by
  intro n
  induction n with
  | zero =>
    intro p s v hlen hw
    cases p with
    | nil => cases hw.1
    | cons a t => cases hlen
  | succ n ih =>
    intro p s v hlen hw
    by_cases hnd : p.Nodup
    · exact ⟨p, ⟨hw.1, hw.2.1, hw.2.2, hnd⟩, le_refl _⟩
    · obtain ⟨a, l₁, l₂, l₃, heq⟩ := exists_dup_split hnd
      obtain ⟨hwalk, hhead, hlast⟩ := hw
      subst heq
      -- split the walk at the first copy of `a`
      have hsplit1 := isWalk_append_split top l₁ a (l₂ ++ a :: l₃) hwalk
      have hsplit2 := isWalk_append_split top (a :: l₂) a l₃
        (by rw [show ((a :: l₂) ++ a :: l₃ : List String) = a :: (l₂ ++ a :: l₃) from rfl];
            exact hsplit1.2)
      have hjoin : IsWalkB top (l₁ ++ a :: l₃) = true :=
        isWalk_append_join top l₁ a l₃ hsplit1.1 hsplit2.2
      -- cost comparison
      have hc1 : walkCost top (l₁ ++ a :: (l₂ ++ a :: l₃)) =
          walkCost top (l₁ ++ [a]) + walkCost top (a :: (l₂ ++ a :: l₃)) :=
        walkCost_append top l₁ a (l₂ ++ a :: l₃)
      have hc2 : walkCost top (a :: (l₂ ++ a :: l₃)) =
          walkCost top ((a :: l₂) ++ [a]) + walkCost top (a :: l₃) :=
        walkCost_append top (a :: l₂) a l₃
      have hc3 : walkCost top (l₁ ++ a :: l₃) =
          walkCost top (l₁ ++ [a]) + walkCost top (a :: l₃) :=
        walkCost_append top l₁ a l₃
      have hmidnn : Cost.val 0 ≤ walkCost top ((a :: l₂) ++ [a]) :=
        walkCost_nonneg hok hsplit2.1
      have hcost : walkCost top (l₁ ++ a :: l₃) ≤
          walkCost top (l₁ ++ a :: (l₂ ++ a :: l₃)) := by
        rw [hc1, hc2, hc3]
        apply Cost.add_mono_left
        exact Cost.le_add_nonneg_left hmidnn
      -- endpoints
      have hhead' : (l₁ ++ a :: l₃).head? = some s := by
        rw [List.head?_append]
        rw [List.head?_append] at hhead
        cases l₁ with
        | nil => exact hhead
        | cons b t => exact hhead
      have hlast' : (l₁ ++ a :: l₃).getLast? = some v := by
        rw [List.getLast?_append_of_ne_nil _ (by simp : (a :: l₃ : List String) ≠ [])]
        rw [List.getLast?_append_of_ne_nil _
          (by simp : (a :: (l₂ ++ a :: l₃) : List String) ≠ [])] at hlast
        rw [show (a :: (l₂ ++ a :: l₃) : List String) = (a :: l₂) ++ a :: l₃ from rfl] at hlast
        rw [List.getLast?_append_of_ne_nil _ (by simp : (a :: l₃ : List String) ≠ [])] at hlast
        exact hlast
      -- the shortened walk is strictly shorter
      have hlen' : (l₁ ++ a :: l₃).length ≤ n := by
        have h1 : (l₁ ++ a :: (l₂ ++ a :: l₃)).length = l₁.length + l₂.length + l₃.length + 2 := by
          simp [List.length_append]
          omega
        have h2 : (l₁ ++ a :: l₃).length = l₁.length + l₃.length + 1 := by
          simp [List.length_append]
          omega
        rw [h1] at hlen
        rw [h2]
        omega
      obtain ⟨p', hsp, hle⟩ := ih (l₁ ++ a :: l₃) s v hlen' ⟨hjoin, hhead', hlast'⟩
      exact ⟨p', hsp, le_trans hle hcost⟩

/-! ### Heap-order lemmas (for C2) -/

theorem strLtL_trans : ∀ x y z : List Char,
    strLtL x y = true → strLtL y z = true → strLtL x z = true := by
  intro x
  induction x with
  | nil =>
    intro y z h1 h2
    cases y with
    | nil => cases h1
    | cons d ds =>
      cases z with
      | nil => cases h2
      | cons e es => rfl
  | cons c cs ih =>
    intro y z h1 h2
    cases y with
    | nil => cases h1
    | cons d ds =>
      cases z with
      | nil => cases h2
      | cons e es =>
        rw [strLtL] at h1 h2 ⊢
        by_cases hcd : c.toNat < d.toNat
        · by_cases hde : d.toNat < e.toNat
          · rw [if_pos (by omega : c.toNat < e.toNat)]
          · by_cases hed : e.toNat < d.toNat
            · rw [if_neg hde, if_pos hed] at h2
              cases h2
            · have hde' : d.toNat = e.toNat := by omega
              rw [if_pos (by omega : c.toNat < e.toNat)]
        · by_cases hdc : d.toNat < c.toNat
          · rw [if_neg hcd, if_pos hdc] at h1
            cases h1
          · have hcd' : c.toNat = d.toNat := by omega
            by_cases hde : d.toNat < e.toNat
            · rw [if_pos (by omega : c.toNat < e.toNat)]
            · by_cases hed : e.toNat < d.toNat
              · rw [if_neg hde, if_pos hed] at h2
                cases h2
              · have hde' : d.toNat = e.toNat := by omega
                rw [if_neg (by omega : ¬ c.toNat < e.toNat),
                  if_neg (by omega : ¬ e.toNat < c.toNat)]
                rw [if_neg hcd, if_neg hdc] at h1
                rw [if_neg hde, if_neg hed] at h2
                exact ih ds es h1 h2

theorem strLtL_trichotomy : ∀ x y : List Char,
    strLtL x y = true ∨ x = y ∨ strLtL y x = true := by
  intro x
  induction x with
  | nil =>
    intro y
    cases y with
    | nil => exact Or.inr (Or.inl rfl)
    | cons d ds => exact Or.inl rfl
  | cons c cs ih =>
    intro y
    cases y with
    | nil => exact Or.inr (Or.inr rfl)
    | cons d ds =>
      by_cases hcd : c.toNat < d.toNat
      · left
        rw [strLtL, if_pos hcd]
      · by_cases hdc : d.toNat < c.toNat
        · right; right
          rw [strLtL, if_pos hdc]
        · have h1 : c.toNat = d.toNat := by omega
          have hc : c = d := Char.ext (UInt32.ext h1)
          subst hc
          rcases ih ds with h | h | h
          · left
            rw [strLtL, if_neg hcd, if_neg hdc]
            exact h
          · right; left
            rw [h]
          · right; right
            rw [strLtL, if_neg hcd, if_neg hdc]
            exact h

theorem strLtL_irrefl : ∀ x : List Char, strLtL x x = false := by
  intro x
  induction x with
  | nil => rfl
  | cons c cs ih =>
    rw [strLtL, if_neg (lt_irrefl c.toNat), if_neg (lt_irrefl c.toNat)]
    exact ih

theorem pqLeB_total (a b : Cost × String) : pqLeB a b = true ∨ pqLeB b a = true := by
  rcases lt_trichotomy a.1 b.1 with h | h | h
  · left
    rw [pqLeB, show Cost.bltB a.1 b.1 = true from h, Bool.true_or]
  · rcases strLtL_trichotomy a.2.data b.2.data with hs | hs | hs
    · left
      rw [pqLeB, Bool.or_eq_true]
      right
      rw [Bool.and_eq_true, decide_eq_true_eq]
      refine ⟨h, ?_⟩
      rw [strLtB, strLtL_asymm _ _ hs]
      rfl
    · left
      rw [pqLeB, Bool.or_eq_true]
      right
      rw [Bool.and_eq_true, decide_eq_true_eq]
      refine ⟨h, ?_⟩
      rw [strLtB, ← hs, strLtL_irrefl]
      rfl
    · right
      rw [pqLeB, Bool.or_eq_true]
      right
      rw [Bool.and_eq_true, decide_eq_true_eq]
      refine ⟨h.symm, ?_⟩
      rw [strLtB, strLtL_asymm _ _ hs]
      rfl
  · right
    rw [pqLeB, show Cost.bltB b.1 a.1 = true from h, Bool.true_or]

theorem pqLeB_cost {a b : Cost × String} (h : pqLeB a b = true) : a.1 ≤ b.1 := by
  rw [pqLeB, Bool.or_eq_true] at h
  cases h with
  | inl h1 => exact le_of_lt h1
  | inr h2 =>
    rw [Bool.and_eq_true, decide_eq_true_eq] at h2
    exact le_of_eq h2.1

theorem pqLeB_trans {a b c : Cost × String} (h1 : pqLeB a b = true) (h2 : pqLeB b c = true) :
    pqLeB a c = true := by
  rw [pqLeB, Bool.or_eq_true] at h1 h2 ⊢
  cases h1 with
  | inl hlt1 =>
    left
    exact lt_of_lt_of_le hlt1 (pqLeB_cost (by rw [pqLeB, Bool.or_eq_true]; exact h2))
  | inr he1 =>
    rw [Bool.and_eq_true, decide_eq_true_eq] at he1
    cases h2 with
    | inl hlt2 =>
      left
      exact lt_of_le_of_lt (le_of_eq he1.1) hlt2
    | inr he2 =>
      rw [Bool.and_eq_true, decide_eq_true_eq] at he2
      right
      rw [Bool.and_eq_true, decide_eq_true_eq]
      refine ⟨he1.1.trans he2.1, ?_⟩
      have hba : strLtL b.2.data a.2.data = false := by
        have := he1.2
        rw [strLtB] at this
        cases hx : strLtL b.2.data a.2.data with
        | false => rfl
        | true => rw [hx] at this; cases this
      have hcb : strLtL c.2.data b.2.data = false := by
        have := he2.2
        rw [strLtB] at this
        cases hx : strLtL c.2.data b.2.data with
        | false => rfl
        | true => rw [hx] at this; cases this
      rw [strLtB]
      cases hca : strLtL c.2.data a.2.data with
      | false => rfl
      | true =>
        rcases strLtL_trichotomy b.2.data a.2.data with hb | hb | hb
        · rw [hb] at hba; cases hba
        · rw [← hb] at hca
          rw [hca] at hcb
          cases hcb
        · have := strLtL_trans _ _ _ hca hb
          rw [this] at hcb
          cases hcb

theorem mem_pqPush_self : ∀ (pq : List (Cost × String)) (e : Cost × String), e ∈ pqPush pq e := by
  intro pq e
  induction pq with
  | nil => exact List.mem_singleton.2 rfl
  | cons x t ih =>
    rw [pqPush]
    by_cases h : pqLeB e x = true
    · rw [if_pos h]
      exact List.mem_cons_self _ _
    · rw [if_neg h]
      exact List.mem_cons_of_mem _ ih

theorem mem_pqPush_of_mem : ∀ (pq : List (Cost × String)) (e x : Cost × String),
    x ∈ pq → x ∈ pqPush pq e := by
  intro pq e
  induction pq with
  | nil => intro x h; cases h
  | cons y t ih =>
    intro x h
    rw [pqPush]
    by_cases hle : pqLeB e y = true
    · rw [if_pos hle]
      exact List.mem_cons_of_mem _ h
    · rw [if_neg hle]
      cases List.mem_cons.1 h with
      | inl he => exact he ▸ List.mem_cons_self _ _
      | inr ht => exact List.mem_cons_of_mem _ (ih x ht)

theorem mem_of_mem_pqPush : ∀ (pq : List (Cost × String)) (e x : Cost × String),
    x ∈ pqPush pq e → x ∈ pq ∨ x = e := by
  intro pq e
  induction pq with
  | nil =>
    intro x h
    exact Or.inr (List.mem_singleton.1 h)
  | cons y t ih =>
    intro x h
    rw [pqPush] at h
    by_cases hle : pqLeB e y = true
    · rw [if_pos hle] at h
      cases List.mem_cons.1 h with
      | inl he => exact Or.inr he
      | inr ht => exact Or.inl ht
    · rw [if_neg hle] at h
      cases List.mem_cons.1 h with
      | inl he => exact Or.inl (he ▸ List.mem_cons_self _ _)
      | inr ht =>
        cases ih x ht with
        | inl h1 => exact Or.inl (List.mem_cons_of_mem _ h1)
        | inr h2 => exact Or.inr h2

theorem pqPush_pairwise : ∀ (pq : List (Cost × String)) (e : Cost × String),
    List.Pairwise (fun a b => pqLeB a b = true) pq →
    List.Pairwise (fun a b => pqLeB a b = true) (pqPush pq e) := by
  intro pq e
  induction pq with
  | nil => intro _; exact List.pairwise_singleton _ _
  | cons x t ih =>
    intro hp
    rw [List.pairwise_cons] at hp
    rw [pqPush]
    by_cases hle : pqLeB e x = true
    · rw [if_pos hle]
      rw [List.pairwise_cons]
      refine ⟨?_, List.pairwise_cons.2 hp⟩
      intro y hy
      cases List.mem_cons.1 hy with
      | inl he => exact he ▸ hle
      | inr ht => exact pqLeB_trans hle (hp.1 y ht)
    · rw [if_neg hle]
      rw [List.pairwise_cons]
      refine ⟨?_, ih hp.2⟩
      intro y hy
      cases mem_of_mem_pqPush t e y hy with
      | inl h1 => exact hp.1 y h1
      | inr h2 =>
        rw [h2]
        exact (pqLeB_total e x).resolve_left (fun hc => hle hc)

/-! ### Properties of the relaxation fold (for C2) -/

theorem relaxAll_cons (u : String) (d : Cost) (vis : List String) (v : String) (w : Cost)
    (rest : List (String × Cost)) (pq : List (Cost × String)) (dist : List (String × Cost))
    (prev : List (String × String)) :
    relaxAll u d vis ((v, w) :: rest) (pq, dist, prev) =
      if v ∈ vis then relaxAll u d vis rest (pq, dist, prev)
      else if d + w < (ddRead dist v).1 then
        relaxAll u d vis rest
          (pqPush pq (d + w, v), setA (ddRead dist v).2 v (d + w), setA prev v u)
      else relaxAll u d vis rest (pq, (ddRead dist v).2, prev) := rfl

theorem relaxOne_dist_le {dist : List (String × Cost)} {v : String} {dd : Cost}
    (hlt : dd < (ddRead dist v).1) (x : String) :
    dVal (setA (ddRead dist v).2 v dd) x ≤ dVal dist x := by
  by_cases hx : v = x
  · subst hx
    rw [dVal_setA_self]
    rw [ddRead_fst] at hlt
    exact le_of_lt hlt
  · rw [dVal_setA_ne _ _ _ _ hx, dVal_ddRead]

theorem relaxAll_dist_le (u : String) (d : Cost) (vis : List String) :
    ∀ (l : List (String × Cost)) (pq : List (Cost × String)) (dist : List (String × Cost))
    (prev : List (String × String)) (x : String),
    dVal (relaxAll u d vis l (pq, dist, prev)).2.1 x ≤ dVal dist x := by
  intro l
  induction l with
  | nil => intro pq dist prev x; exact le_refl _
  | cons e t ih =>
    intro pq dist prev x
    obtain ⟨v, w⟩ := e
    rw [relaxAll_cons]
    by_cases hv : v ∈ vis
    · rw [if_pos hv]
      exact ih pq dist prev x
    · rw [if_neg hv]
      by_cases hlt : d + w < (ddRead dist v).1
      · rw [if_pos hlt]
        exact le_trans (ih _ _ _ x) (relaxOne_dist_le hlt x)
      · rw [if_neg hlt]
        exact le_trans (ih _ _ _ x) (le_of_eq (dVal_ddRead dist v x))

theorem relaxAll_vis_eq (u : String) (d : Cost) (vis : List String) :
    ∀ (l : List (String × Cost)) (pq : List (Cost × String)) (dist : List (String × Cost))
    (prev : List (String × String)) (x : String), x ∈ vis →
    dVal (relaxAll u d vis l (pq, dist, prev)).2.1 x = dVal dist x := by
  intro l
  induction l with
  | nil => intro pq dist prev x _; rfl
  | cons e t ih =>
    intro pq dist prev x hx
    obtain ⟨v, w⟩ := e
    rw [relaxAll_cons]
    by_cases hv : v ∈ vis
    · rw [if_pos hv]
      exact ih pq dist prev x hx
    · rw [if_neg hv]
      have hxv : v ≠ x := fun he => hv (he ▸ hx)
      by_cases hlt : d + w < (ddRead dist v).1
      · rw [if_pos hlt]
        rw [ih _ _ _ x hx, dVal_setA_ne _ _ _ _ hxv, dVal_ddRead]
      · rw [if_neg hlt]
        rw [ih _ _ _ x hx, dVal_ddRead]

theorem relaxAll_cases (u : String) (d : Cost) (vis : List String) :
    ∀ (l : List (String × Cost)), (l.map Prod.fst).Nodup →
    ∀ (pq : List (Cost × String)) (dist : List (String × Cost))
    (prev : List (String × String)) (x : String),
    dVal (relaxAll u d vis l (pq, dist, prev)).2.1 x = dVal dist x ∨
    (x ∉ vis ∧ ∃ w, lookupA l x = some w ∧
      dVal (relaxAll u d vis l (pq, dist, prev)).2.1 x = d + w) := by
  intro l
  induction l with
  | nil => intro _ pq dist prev x; exact Or.inl rfl
  | cons e t ih =>
    intro hnd pq dist prev x
    obtain ⟨v, w⟩ := e
    rw [List.map_cons, List.nodup_cons] at hnd
    rw [relaxAll_cons]
    by_cases hv : v ∈ vis
    · rw [if_pos hv]
      cases ih hnd.2 pq dist prev x with
      | inl h => exact Or.inl h
      | inr h =>
        obtain ⟨hxv, w', hlk, heq⟩ := h
        have hvx : v ≠ x := fun he => hxv (he ▸ hv)
        refine Or.inr ⟨hxv, w', ?_, heq⟩
        rw [lookupA, if_neg hvx]
        exact hlk
    · rw [if_neg hv]
      by_cases hlt : d + w < (ddRead dist v).1
      · rw [if_pos hlt]
        cases ih hnd.2 _ _ _ x with
        | inl h =>
          by_cases hx : v = x
          · subst hx
            refine Or.inr ⟨hv, w, ?_, ?_⟩
            · rw [lookupA, if_pos rfl]
            · rw [h, dVal_setA_self]
          · left
            rw [h, dVal_setA_ne _ _ _ _ hx, dVal_ddRead]
        | inr h =>
          obtain ⟨hxv, w', hlk, heq⟩ := h
          have hmem : x ∈ t.map Prod.fst := by
            have := lookupA_mem hlk
            exact List.mem_map.2 ⟨(x, w'), this, rfl⟩
          have hvx : v ≠ x := fun he => hnd.1 (he ▸ hmem)
          refine Or.inr ⟨hxv, w', ?_, heq⟩
          rw [lookupA, if_neg hvx]
          exact hlk
      · rw [if_neg hlt]
        cases ih hnd.2 _ _ _ x with
        | inl h =>
          left
          rw [h, dVal_ddRead]
        | inr h =>
          obtain ⟨hxv, w', hlk, heq⟩ := h
          have hmem : x ∈ t.map Prod.fst := by
            have := lookupA_mem hlk
            exact List.mem_map.2 ⟨(x, w'), this, rfl⟩
          have hvx : v ≠ x := fun he => hnd.1 (he ▸ hmem)
          refine Or.inr ⟨hxv, w', ?_, heq⟩
          rw [lookupA, if_neg hvx]
          exact hlk

theorem relaxAll_bound (u : String) (d : Cost) (vis : List String) :
    ∀ (l : List (String × Cost)) (pq : List (Cost × String)) (dist : List (String × Cost))
    (prev : List (String × String)) (v₀ : String) (w₀ : Cost),
    lookupA l v₀ = some w₀ → v₀ ∉ vis →
    dVal (relaxAll u d vis l (pq, dist, prev)).2.1 v₀ ≤ d + w₀ := by
  intro l
  induction l with
  | nil => intro pq dist prev v₀ w₀ h; cases h
  | cons e t ih =>
    intro pq dist prev v₀ w₀ hlk hnv
    obtain ⟨v, w⟩ := e
    rw [lookupA] at hlk
    rw [relaxAll_cons]
    by_cases hvv : v = v₀
    · subst hvv
      rw [if_pos rfl] at hlk
      cases hlk
      rw [if_neg hnv]
      by_cases hlt : d + w₀ < (ddRead dist v).1
      · rw [if_pos hlt]
        calc dVal (relaxAll u d vis t _).2.1 v ≤
            dVal (setA (ddRead dist v).2 v (d + w₀)) v := relaxAll_dist_le u d vis t _ _ _ v
        _ = d + w₀ := dVal_setA_self _ _ _
      · rw [if_neg hlt]
        calc dVal (relaxAll u d vis t _).2.1 v ≤ dVal (ddRead dist v).2 v :=
            relaxAll_dist_le u d vis t _ _ _ v
        _ = dVal dist v := dVal_ddRead dist v v
        _ ≤ d + w₀ := by
            rw [← ddRead_fst]
            exact not_lt.1 hlt
    · rw [if_neg hvv] at hlk
      by_cases hv : v ∈ vis
      · rw [if_pos hv]
        exact ih pq dist prev v₀ w₀ hlk hnv
      · rw [if_neg hv]
        by_cases hlt : d + w < (ddRead dist v).1
        · rw [if_pos hlt]
          exact ih _ _ _ v₀ w₀ hlk hnv
        · rw [if_neg hlt]
          exact ih _ _ _ v₀ w₀ hlk hnv

theorem relaxAll_pq_mono (u : String) (d : Cost) (vis : List String) :
    ∀ (l : List (String × Cost)) (pq : List (Cost × String)) (dist : List (String × Cost))
    (prev : List (String × String)) (x : Cost × String),
    x ∈ pq → x ∈ (relaxAll u d vis l (pq, dist, prev)).1 := by
  intro l
  induction l with
  | nil => intro pq dist prev x h; exact h
  | cons e t ih =>
    intro pq dist prev x hx
    obtain ⟨v, w⟩ := e
    rw [relaxAll_cons]
    by_cases hv : v ∈ vis
    · rw [if_pos hv]
      exact ih pq dist prev x hx
    · rw [if_neg hv]
      by_cases hlt : d + w < (ddRead dist v).1
      · rw [if_pos hlt]
        exact ih _ _ _ x (mem_pqPush_of_mem pq _ x hx)
      · rw [if_neg hlt]
        exact ih _ _ _ x hx

theorem relaxAll_sorted (u : String) (d : Cost) (vis : List String) :
    ∀ (l : List (String × Cost)) (pq : List (Cost × String)) (dist : List (String × Cost))
    (prev : List (String × String)),
    List.Pairwise (fun a b => pqLeB a b = true) pq →
    List.Pairwise (fun a b => pqLeB a b = true) (relaxAll u d vis l (pq, dist, prev)).1 := by
  intro l
  induction l with
  | nil => intro pq dist prev h; exact h
  | cons e t ih =>
    intro pq dist prev hp
    obtain ⟨v, w⟩ := e
    rw [relaxAll_cons]
    by_cases hv : v ∈ vis
    · rw [if_pos hv]
      exact ih pq dist prev hp
    · rw [if_neg hv]
      by_cases hlt : d + w < (ddRead dist v).1
      · rw [if_pos hlt]
        exact ih _ _ _ (pqPush_pairwise pq _ hp)
      · rw [if_neg hlt]
        exact ih _ _ _ hp

theorem relaxAll_pq_fin (u : String) (d : Cost) (vis : List String) :
    ∀ (l : List (String × Cost)) (pq : List (Cost × String)) (dist : List (String × Cost))
    (prev : List (String × String)),
    (∀ e ∈ pq, ∃ q : ℚ, e.1 = Cost.val q ∧ 0 ≤ q) →
    (∃ qd : ℚ, d = Cost.val qd ∧ 0 ≤ qd) →
    (∀ v w, (v, w) ∈ l → ∃ q : ℚ, w = Cost.val q ∧ 0 ≤ q) →
    ∀ e ∈ (relaxAll u d vis l (pq, dist, prev)).1, ∃ q : ℚ, e.1 = Cost.val q ∧ 0 ≤ q := by
  intro l
  induction l with
  | nil => intro pq dist prev hpq _ _ e he; exact hpq e he
  | cons e0 t ih =>
    intro pq dist prev hpq hd hw e he
    obtain ⟨v, w⟩ := e0
    rw [relaxAll_cons] at he
    by_cases hv : v ∈ vis
    · rw [if_pos hv] at he
      exact ih pq dist prev hpq hd (fun v' w' hm => hw v' w' (List.mem_cons_of_mem _ hm)) e he
    · rw [if_neg hv] at he
      by_cases hlt : d + w < (ddRead dist v).1
      · rw [if_pos hlt] at he
        refine ih _ _ _ ?_ hd (fun v' w' hm => hw v' w' (List.mem_cons_of_mem _ hm)) e he
        intro e' he'
        cases mem_of_mem_pqPush pq _ e' he' with
        | inl h1 => exact hpq e' h1
        | inr h2 =>
          obtain ⟨qd, hqd, hqdn⟩ := hd
          obtain ⟨qw, hqw, hqwn⟩ := hw v w (List.mem_cons_self _ _)
          refine ⟨qd + qw, ?_, by positivity⟩
          rw [h2, hqd, hqw]
          show Cost.val qd + Cost.val qw = _
          rw [Cost.val_add_val]
      · rw [if_neg hlt] at he
        exact ih _ _ _ hpq hd (fun v' w' hm => hw v' w' (List.mem_cons_of_mem _ hm)) e he

theorem relaxAll_pq_ge (u : String) (d : Cost) (vis : List String) :
    ∀ (l : List (String × Cost)) (pq : List (Cost × String)) (dist : List (String × Cost))
    (prev : List (String × String)),
    (∀ e ∈ pq, dVal dist e.2 ≤ e.1) →
    ∀ e ∈ (relaxAll u d vis l (pq, dist, prev)).1,
      dVal (relaxAll u d vis l (pq, dist, prev)).2.1 e.2 ≤ e.1 := by
  intro l
  induction l with
  | nil => intro pq dist prev hpq e he; exact hpq e he
  | cons e0 t ih =>
    intro pq dist prev hpq e he
    obtain ⟨v, w⟩ := e0
    rw [relaxAll_cons] at he ⊢
    by_cases hv : v ∈ vis
    · rw [if_pos hv] at he ⊢
      exact ih pq dist prev hpq e he
    · rw [if_neg hv] at he ⊢
      by_cases hlt : d + w < (ddRead dist v).1
      · rw [if_pos hlt] at he ⊢
        refine ih _ _ _ ?_ e he
        intro e' he'
        cases mem_of_mem_pqPush pq _ e' he' with
        | inl h1 => exact le_trans (relaxOne_dist_le hlt e'.2) (hpq e' h1)
        | inr h2 =>
          rw [h2]
          rw [show ((d + w, v) : Cost × String).2 = v from rfl, dVal_setA_self]
      · rw [if_neg hlt] at he ⊢
        refine ih _ _ _ ?_ e he
        intro e' he'
        rw [dVal_ddRead]
        exact hpq e' he'

theorem relaxAll_pq_ex (u : String) (d : Cost) (vis : List String) :
    ∀ (l : List (String × Cost)) (pq : List (Cost × String)) (dist : List (String × Cost))
    (prev : List (String × String)),
    (∀ x, x ∉ vis → dVal dist x ≠ Cost.inf → ((dVal dist x, x) : Cost × String) ∈ pq) →
    ∀ x, x ∉ vis → dVal (relaxAll u d vis l (pq, dist, prev)).2.1 x ≠ Cost.inf →
    ((dVal (relaxAll u d vis l (pq, dist, prev)).2.1 x, x) : Cost × String) ∈
      (relaxAll u d vis l (pq, dist, prev)).1 := by
  intro l
  induction l with
  | nil => intro pq dist prev hex x hx hne; exact hex x hx hne
  | cons e0 t ih =>
    intro pq dist prev hex x hx hne
    obtain ⟨v, w⟩ := e0
    rw [relaxAll_cons] at hne ⊢
    by_cases hv : v ∈ vis
    · rw [if_pos hv] at hne ⊢
      exact ih pq dist prev hex x hx hne
    · rw [if_neg hv] at hne ⊢
      by_cases hlt : d + w < (ddRead dist v).1
      · rw [if_pos hlt] at hne ⊢
        refine ih _ _ _ ?_ x hx hne
        intro y hy hyne
        by_cases hyv : v = y
        · subst hyv
          rw [dVal_setA_self]
          exact mem_pqPush_self pq _
        · rw [dVal_setA_ne _ _ _ _ hyv, dVal_ddRead] at hyne ⊢
          exact mem_pqPush_of_mem pq _ _ (hex y hy hyne)
      · rw [if_neg hlt] at hne ⊢
        refine ih _ _ _ ?_ x hx hne
        intro y hy hyne
        rw [dVal_ddRead] at hyne ⊢
        exact hex y hy hyne

/-! ### The Dijkstra loop invariant and correctness (for C2) -/

theorem Cost.le_add_nonneg_right {a b : Cost} (h : Cost.val 0 ≤ b) : a ≤ a + b := by
  calc a = a + Cost.val 0 := (Cost.add_zero' a).symm
  _ ≤ a + b := Cost.add_mono_left h a

theorem topGetD_ok {top : TopDB} (hok : topOKB top = true) {u v : String} {w : Cost}
    (h : (v, w) ∈ topGetD top u) : ∃ q : ℚ, w = Cost.val q ∧ 0 ≤ q := by
  rw [topGetD] at h
  cases hl : lookupA top u with
  | none => rw [hl] at h; cases h
  | some inner =>
    rw [hl] at h
    have hm1 : (u, inner) ∈ top := lookupA_mem hl
    have h1 := (List.all_eq_true.1 hok) _ hm1
    have h2 := (List.all_eq_true.1 h1) _ h
    cases w with
    | val q => exact ⟨q, rfl, by simpa using h2⟩
    | inf => simp at h2

theorem walkFT_extend {top : TopDB} {s u v : String} {p : List String} {c : Cost}
    (hw : WalkFT top s u p) (he : edgeCost top u v = some c) :
    WalkFT top s v (p ++ [v]) ∧ walkCost top (p ++ [v]) = walkCost top p + c := by
  obtain ⟨hwk, hhd, hlast⟩ := hw
  refine ⟨⟨?_, ?_, ?_⟩, ?_⟩
  · exact (isWalk_snoc top p u v hlast).2 ⟨hwk, by rw [he]; rfl⟩
  · cases p with
    | nil => cases hhd
    | cons a t => exact hhd
  · exact List.getLast?_concat _
  · rw [walkCost_snoc top p u v hlast, he]
    rfl

/-- The invariant maintained by `_dijkstra`'s `while pq` loop when started at
source `s`: the queue is sorted and holds finite nonnegative keys that
over-approximate the tentative distances; every unvisited node with a finite
tentative distance has its current entry in the queue; every finite tentative
distance is achieved by some walk; visited nodes are settled (optimal); and
edges out of the visited region have been relaxed. -/
structure DInv (top : TopDB) (s : String) (pq : List (Cost × String))
    (dist : List (String × Cost)) (visited : List String) : Prop where
  sorted : List.Pairwise (fun a b => pqLeB a b = true) pq
  pq_fin : ∀ e ∈ pq, ∃ q : ℚ, e.1 = Cost.val q ∧ 0 ≤ q
  pq_ge : ∀ e ∈ pq, dVal dist e.2 ≤ e.1
  pq_ex : ∀ v, v ∉ visited → dVal dist v ≠ Cost.inf →
    ((dVal dist v, v) : Cost × String) ∈ pq
  dist_s : dVal dist s = Cost.val 0
  achieved : ∀ v, dVal dist v ≠ Cost.inf →
    ∃ p, WalkFT top s v p ∧ walkCost top p = dVal dist v
  vis_opt : ∀ z ∈ visited, ∀ p, WalkFT top s z p → dVal dist z ≤ walkCost top p
  frontier : ∀ v, v ∉ visited → ∀ z ∈ visited, ∀ c, edgeCost top z v = some c →
    dVal dist v ≤ dVal dist z + c

theorem dinv_head_eq {top : TopDB} {s : String} {d : Cost} {u : String}
    {rest : List (Cost × String)} {dist : List (String × Cost)} {visited : List String}
    (inv : DInv top s ((d, u) :: rest) dist visited) (hu : u ∉ visited) :
    d = dVal dist u := by
  have h1 : dVal dist u ≤ d := inv.pq_ge (d, u) (List.mem_cons_self _ _)
  obtain ⟨q, hq, _⟩ := inv.pq_fin (d, u) (List.mem_cons_self _ _)
  have hq' : d = Cost.val q := hq
  have hne : dVal dist u ≠ Cost.inf := by
    intro he
    rw [he, hq'] at h1
    exact absurd h1 (not_le.2 (Cost.val_lt_inf q))
  have hmem := inv.pq_ex u hu hne
  cases List.mem_cons.1 hmem with
  | inl he => exact (congrArg Prod.fst he).symm
  | inr ht =>
    have hle := (List.pairwise_cons.1 inv.sorted).1 _ ht
    exact le_antisymm (pqLeB_cost hle) h1

theorem dinv_prefix_bound {top : TopDB} {s : String} {dist : List (String × Cost)}
    {visited : List String}
    (hds : dVal dist s = Cost.val 0)
    (hvis : ∀ z ∈ visited, ∀ p, WalkFT top s z p → dVal dist z ≤ walkCost top p)
    (hfr : ∀ v, v ∉ visited → ∀ z ∈ visited, ∀ c, edgeCost top z v = some c →
      dVal dist v ≤ dVal dist z + c)
    (p₁ : List String) (y : String) (hall : ∀ x ∈ p₁, x ∈ visited)
    (hw : WalkFT top s y (p₁ ++ [y])) (hy : y ∉ visited) :
    dVal dist y ≤ walkCost top (p₁ ++ [y]) := by
  obtain ⟨hwk, hhd, hlast⟩ := hw
  cases p₁ with
  | nil =>
    have hys : y = s := Option.some_inj.1 hhd
    subst hys
    rw [hds]
    exact le_refl _
  | cons a t =>
    obtain ⟨z, hz⟩ : ∃ z, (a :: t).getLast? = some z := ⟨(a :: t).getLast (by simp), rfl⟩
    have hzvis : z ∈ visited := hall z (List.mem_of_mem_getLast? hz)
    have hsplit := (isWalk_snoc top (a :: t) z y hz).1 hwk
    have hwz : WalkFT top s z (a :: t) := ⟨hsplit.1, hhd, hz⟩
    obtain ⟨c, hc⟩ := Option.isSome_iff_exists.1 hsplit.2
    have h1 : dVal dist z ≤ walkCost top (a :: t) := hvis z hzvis (a :: t) hwz
    have h2 : dVal dist y ≤ dVal dist z + c := hfr y hy z hzvis c hc
    have h3 : walkCost top ((a :: t) ++ [y]) = walkCost top (a :: t) + c := by
      rw [walkCost_snoc top (a :: t) z y hz, hc]
      rfl
    rw [h3]
    exact le_trans h2 (Cost.add_mono_right h1 c)

theorem dinv_pop_opt {top : TopDB} (hok : topOKB top = true) {s : String} {d : Cost}
    {u : String} {rest : List (Cost × String)} {dist : List (String × Cost)}
    {visited : List String}
    (inv : DInv top s ((d, u) :: rest) dist visited) (hu : u ∉ visited) :
    ∀ p, WalkFT top s u p → dVal dist u ≤ walkCost top p := by
  intro p hw
  have hmem : u ∈ p := List.mem_of_mem_getLast? hw.2.2
  obtain ⟨p₁, y, p₂, heq, hall, hy⟩ := walk_first_unvisited visited p ⟨u, hmem, hu⟩
  subst heq
  obtain ⟨hwk, hhd, _⟩ := hw
  have hsplit := isWalk_append_split top p₁ y p₂ hwk
  have hhd1 : (p₁ ++ [y]).head? = some s := by
    cases p₁ with
    | nil => exact hhd
    | cons a t => exact hhd
  have hw1 : WalkFT top s y (p₁ ++ [y]) := ⟨hsplit.1, hhd1, List.getLast?_concat _⟩
  have hby : dVal dist y ≤ walkCost top (p₁ ++ [y]) :=
    dinv_prefix_bound inv.dist_s inv.vis_opt inv.frontier p₁ y hall hw1 hy
  have htail : Cost.val 0 ≤ walkCost top (y :: p₂) := walkCost_nonneg hok hsplit.2
  have hcost : walkCost top (p₁ ++ [y]) ≤ walkCost top (p₁ ++ y :: p₂) := by
    rw [walkCost_append top p₁ y p₂]
    exact Cost.le_add_nonneg_right htail
  obtain ⟨qc, hqc, _⟩ := walkCost_fin_nonneg hok (p₁ ++ [y]) hsplit.1
  have hyfin : dVal dist y ≠ Cost.inf := by
    intro he
    rw [he, hqc] at hby
    exact absurd hby (not_le.2 (Cost.val_lt_inf qc))
  have hqmem := inv.pq_ex y hy hyfin
  have huy : dVal dist u ≤ dVal dist y := by
    cases List.mem_cons.1 hqmem with
    | inl he =>
      have h2 : y = u := congrArg Prod.snd he
      exact le_of_eq (by rw [h2])
    | inr ht =>
      have hle := (List.pairwise_cons.1 inv.sorted).1 _ ht
      have hd : d = dVal dist u := dinv_head_eq inv hu
      rw [← hd]
      exact pqLeB_cost hle
  exact le_trans huy (le_trans hby hcost)

theorem dinv_empty_opt {top : TopDB} (hok : topOKB top = true) {s : String}
    {dist : List (String × Cost)} {visited : List String}
    (inv : DInv top s [] dist visited) :
    ∀ v p, WalkFT top s v p → dVal dist v ≤ walkCost top p := by
  intro v p hw
  by_cases hv : v ∈ visited
  · exact inv.vis_opt v hv p hw
  · exfalso
    have hmem : v ∈ p := List.mem_of_mem_getLast? hw.2.2
    obtain ⟨p₁, y, p₂, heq, hall, hy⟩ := walk_first_unvisited visited p ⟨v, hmem, hv⟩
    subst heq
    obtain ⟨hwk, hhd, _⟩ := hw
    have hsplit := isWalk_append_split top p₁ y p₂ hwk
    have hhd1 : (p₁ ++ [y]).head? = some s := by
      cases p₁ with
      | nil => exact hhd
      | cons a t => exact hhd
    have hw1 : WalkFT top s y (p₁ ++ [y]) := ⟨hsplit.1, hhd1, List.getLast?_concat _⟩
    have hby : dVal dist y ≤ walkCost top (p₁ ++ [y]) :=
      dinv_prefix_bound inv.dist_s inv.vis_opt inv.frontier p₁ y hall hw1 hy
    obtain ⟨qc, hqc, _⟩ := walkCost_fin_nonneg hok (p₁ ++ [y]) hsplit.1
    have hyfin : dVal dist y ≠ Cost.inf := by
      intro he
      rw [he, hqc] at hby
      exact absurd hby (not_le.2 (Cost.val_lt_inf qc))
    exact absurd (inv.pq_ex y hy hyfin) (List.not_mem_nil _)

theorem dinv_step {top : TopDB} (hok : topOKB top = true) (hnd : innerNodupB top = true)
    {s : String} {d : Cost} {u : String} {rest : List (Cost × String)}
    {dist : List (String × Cost)} (prev : List (String × String)) {visited : List String}
    (inv : DInv top s ((d, u) :: rest) dist visited) (hu : u ∉ visited) :
    DInv top s
      (relaxAll u d (u :: visited) (topGetD top u) (rest, dist, prev)).1
      (relaxAll u d (u :: visited) (topGetD top u) (rest, dist, prev)).2.1
      (u :: visited) := by
  have hpair := List.pairwise_cons.1 inv.sorted
  have hd_eq : d = dVal dist u := dinv_head_eq inv hu
  obtain ⟨qd, hqd0, hqdn⟩ := inv.pq_fin (d, u) (List.mem_cons_self _ _)
  have hqd : d = Cost.val qd := hqd0
  have hlnd : ((topGetD top u).map Prod.fst).Nodup := inner_nodup hnd u
  have huopt := dinv_pop_opt hok inv hu
  have hach : ∀ x,
      dVal (relaxAll u d (u :: visited) (topGetD top u) (rest, dist, prev)).2.1 x ≠ Cost.inf →
      ∃ p, WalkFT top s x p ∧
        walkCost top p =
          dVal (relaxAll u d (u :: visited) (topGetD top u) (rest, dist, prev)).2.1 x := by
    intro x hne
    cases relaxAll_cases u d (u :: visited) (topGetD top u) hlnd rest dist prev x with
    | inl h =>
      rw [h] at hne ⊢
      exact inv.achieved x hne
    | inr h =>
      obtain ⟨hxv, w, hlk, heq⟩ := h
      have hdu_ne : dVal dist u ≠ Cost.inf := by
        rw [← hd_eq, hqd]
        exact fun hc => Cost.noConfusion hc
      obtain ⟨p, hwp, hcp⟩ := inv.achieved u hdu_ne
      have hedge : edgeCost top u x = some w := hlk
      obtain ⟨hwx, hcx⟩ := walkFT_extend hwp hedge
      refine ⟨p ++ [x], hwx, ?_⟩
      rw [hcx, hcp, heq, hd_eq]
  have hdist_s :
      dVal (relaxAll u d (u :: visited) (topGetD top u) (rest, dist, prev)).2.1 s =
        Cost.val 0 := by
    have h1 : dVal (relaxAll u d (u :: visited) (topGetD top u) (rest, dist, prev)).2.1 s ≤
        Cost.val 0 := by
      rw [← inv.dist_s]
      exact relaxAll_dist_le u d (u :: visited) (topGetD top u) rest dist prev s
    obtain ⟨x, hx, hxle⟩ := Cost.le_of_le_val h1
    have hne : dVal (relaxAll u d (u :: visited) (topGetD top u) (rest, dist, prev)).2.1 s ≠
        Cost.inf := by
      rw [hx]
      exact fun hc => Cost.noConfusion hc
    obtain ⟨p, hwp, hcp⟩ := hach s hne
    obtain ⟨q, hq, hqn⟩ := walkCost_fin_nonneg hok p hwp.1
    have h2 : Cost.val q = Cost.val x := by rw [← hq, hcp, hx]
    have h3 : q = x := by injection h2
    have h4 : x = 0 := le_antisymm hxle (h3 ▸ hqn)
    rw [hx, h4]
  have hvis : ∀ z ∈ u :: visited, ∀ p, WalkFT top s z p →
      dVal (relaxAll u d (u :: visited) (topGetD top u) (rest, dist, prev)).2.1 z ≤
        walkCost top p := by
    intro z hz p hw
    have hzeq := relaxAll_vis_eq u d (u :: visited) (topGetD top u) rest dist prev z hz
    rw [hzeq]
    cases List.mem_cons.1 hz with
    | inl he =>
      subst he
      exact huopt p hw
    | inr ht => exact inv.vis_opt z ht p hw
  have hfr : ∀ v, v ∉ u :: visited → ∀ z ∈ u :: visited, ∀ c,
      edgeCost top z v = some c →
      dVal (relaxAll u d (u :: visited) (topGetD top u) (rest, dist, prev)).2.1 v ≤
        dVal (relaxAll u d (u :: visited) (topGetD top u) (rest, dist, prev)).2.1 z + c := by
    intro v hv z hz c hc
    have hzeq := relaxAll_vis_eq u d (u :: visited) (topGetD top u) rest dist prev z hz
    rw [hzeq]
    cases List.mem_cons.1 hz with
    | inl he =>
      rw [he] at hc ⊢
      rw [← hd_eq]
      exact relaxAll_bound u d (u :: visited) (topGetD top u) rest dist prev v c hc hv
    | inr ht =>
      have hv' : v ∉ visited := fun hm => hv (List.mem_cons_of_mem _ hm)
      calc dVal (relaxAll u d (u :: visited) (topGetD top u) (rest, dist, prev)).2.1 v ≤
          dVal dist v := relaxAll_dist_le u d (u :: visited) (topGetD top u) rest dist prev v
      _ ≤ dVal dist z + c := inv.frontier v hv' z ht c hc
  have hex0 : ∀ x, x ∉ u :: visited → dVal dist x ≠ Cost.inf →
      ((dVal dist x, x) : Cost × String) ∈ rest := by
    intro x hx hne
    have hx' : x ∉ visited := fun hm => hx (List.mem_cons_of_mem _ hm)
    have hmem := inv.pq_ex x hx' hne
    cases List.mem_cons.1 hmem with
    | inl he =>
      exfalso
      have h2 : x = u := congrArg Prod.snd he
      apply hx
      rw [h2]
      exact List.mem_cons_self u visited
    | inr ht => exact ht
  exact ⟨relaxAll_sorted u d (u :: visited) (topGetD top u) rest dist prev hpair.2,
    relaxAll_pq_fin u d (u :: visited) (topGetD top u) rest dist prev
      (fun e he => inv.pq_fin e (List.mem_cons_of_mem _ he)) ⟨qd, hqd, hqdn⟩
      (fun v w hm => topGetD_ok hok hm),
    relaxAll_pq_ge u d (u :: visited) (topGetD top u) rest dist prev
      (fun e he => inv.pq_ge e (List.mem_cons_of_mem _ he)),
    relaxAll_pq_ex u d (u :: visited) (topGetD top u) rest dist prev hex0,
    hdist_s, hach, hvis, hfr⟩

theorem dinv_skip {top : TopDB} {s : String} {d : Cost} {u : String}
    {rest : List (Cost × String)} {dist : List (String × Cost)} {visited : List String}
    (inv : DInv top s ((d, u) :: rest) dist visited) (hu : u ∈ visited) :
    DInv top s rest dist visited := by
  have hpair := List.pairwise_cons.1 inv.sorted
  refine ⟨hpair.2,
    fun e he => inv.pq_fin e (List.mem_cons_of_mem _ he),
    fun e he => inv.pq_ge e (List.mem_cons_of_mem _ he),
    ?_, inv.dist_s, inv.achieved, inv.vis_opt, inv.frontier⟩
  intro x hx hne
  have hmem := inv.pq_ex x hx hne
  cases List.mem_cons.1 hmem with
  | inl he =>
    exfalso
    have h2 : x = u := congrArg Prod.snd he
    apply hx
    rw [h2]
    exact hu
  | inr ht => exact ht

theorem dijkstraLoop_correct (top : TopDB) (hok : topOKB top = true)
    (hnd : innerNodupB top = true) (s : String) :
    ∀ (pq : List (Cost × String)) (dist : List (String × Cost))
      (prev : List (String × String)) (visited : List String),
      DInv top s pq dist visited →
      (∀ v, dVal (dijkstraLoop top pq dist prev visited).1 v ≠ Cost.inf →
        ∃ p, WalkFT top s v p ∧
          walkCost top p = dVal (dijkstraLoop top pq dist prev visited).1 v) ∧
      (∀ v p, WalkFT top s v p →
        dVal (dijkstraLoop top pq dist prev visited).1 v ≤ walkCost top p) := by
  intro pq dist prev visited
  induction pq, dist, prev, visited using dijkstraLoop.induct top with
  | case1 dist prev visited =>
    intro inv
    rw [dijkstraLoop]
    exact ⟨inv.achieved, dinv_empty_opt hok inv⟩
  | case2 d u rest dist prev visited hu ih =>
    intro inv
    rw [dijkstraLoop, if_pos hu]
    exact ih (dinv_skip inv hu)
  | case3 d u rest dist prev visited hu acc ih =>
    intro inv
    rw [dijkstraLoop, if_neg hu]
    exact ih (dinv_step hok hnd prev inv hu)

theorem dinv_init {top : TopDB} (s : String) :
    DInv top s [(Cost.val 0, s)] [(s, Cost.val 0)] [] := by
  have hds : dVal [(s, Cost.val 0)] s = Cost.val 0 := by
    rw [dVal, lookupA, if_pos rfl]
    rfl
  have hdo : ∀ v, s ≠ v → dVal [(s, Cost.val 0)] v = Cost.inf := by
    intro v hv
    rw [dVal, lookupA, if_neg hv]
    rfl
  refine ⟨List.pairwise_singleton _ _, ?_, ?_, ?_, hds, ?_, ?_, ?_⟩
  · intro e he
    rw [List.mem_singleton] at he
    subst he
    exact ⟨0, rfl, le_refl 0⟩
  · intro e he
    rw [List.mem_singleton] at he
    subst he
    show dVal [(s, Cost.val 0)] s ≤ Cost.val 0
    rw [hds]
  · intro v _ hne
    by_cases hs : s = v
    · subst hs
      rw [hds]
      exact List.mem_singleton.2 rfl
    · exact absurd (hdo v hs) hne
  · intro v hne
    by_cases hs : s = v
    · subst hs
      refine ⟨[s], ⟨rfl, rfl, List.getLast?_singleton _⟩, ?_⟩
      rw [hds]
      rfl
    · exact absurd (hdo v hs) hne
  · intro z hz
    cases hz
  · intro v _ z hz
    cases hz

theorem mem_keys_of_dVal_ne_inf {dist : List (String × Cost)} {t : String}
    (h : dVal dist t ≠ Cost.inf) : t ∈ dist.map Prod.fst := by
  rw [dVal] at h
  cases hl : lookupA dist t with
  | none => rw [hl] at h; exact absurd rfl h
  | some c => exact List.mem_map.2 ⟨(t, c), lookupA_mem hl, rfl⟩

theorem buildPaths_fold_lookup (host : String) (dist : List (String × Cost))
    (prev : List (String × String)) (t : String) (ht : t ≠ host)
    (hh : strStartsWith1 t 'h' = true) :
    ∀ (l : List (String × Cost)) (acc : List (String × PathInfo)),
    (t ∈ l.map Prod.fst ∨
      lookupA acc t = some (PathInfo.mk (tracePath prev host t) (dVal dist t))) →
    lookupA
      (l.foldl (fun sp e =>
        if e.1 ≠ host ∧ strStartsWith1 e.1 'h' = true then
          setA sp e.1 (PathInfo.mk (tracePath prev host e.1) (dVal dist e.1))
        else sp) acc) t =
      some (PathInfo.mk (tracePath prev host t) (dVal dist t)) := by
  intro l
  induction l with
  | nil =>
    intro acc h
    cases h with
    | inl h1 => cases h1
    | inr h2 => exact h2
  | cons e rest ih =>
    intro acc h
    obtain ⟨k, c⟩ := e
    rw [List.foldl_cons]
    by_cases hk : k = t
    · subst hk
      have hcond : ((k, c).1 ≠ host ∧ strStartsWith1 (k, c).1 'h' = true) := ⟨ht, hh⟩
      rw [if_pos hcond]
      exact ih _ (Or.inr (lookupA_setA_self _ _ _))
    · have hmem : t ∈ rest.map Prod.fst ∨
          lookupA acc t = some (PathInfo.mk (tracePath prev host t) (dVal dist t)) := by
        cases h with
        | inl h1 =>
          rw [List.map_cons] at h1
          cases List.mem_cons.1 h1 with
          | inl he => exact absurd he.symm hk
          | inr hm => exact Or.inl hm
        | inr h2 => exact Or.inr h2
      by_cases hcond : ((k, c).1 ≠ host ∧ strStartsWith1 (k, c).1 'h' = true)
      · rw [if_pos hcond]
        cases hmem with
        | inl h1 => exact ih _ (Or.inl h1)
        | inr h2 =>
          refine ih _ (Or.inr ?_)
          rw [lookupA_setA_ne _ _ _ _ hk]
          exact h2
      · rw [if_neg hcond]
        exact ih _ hmem

theorem buildPaths_lookup (host : String) (dist : List (String × Cost))
    (prev : List (String × String)) (t : String) (ht : t ≠ host)
    (hh : strStartsWith1 t 'h' = true) (hmem : t ∈ dist.map Prod.fst) :
    lookupA (buildPaths host dist prev) t =
      some (PathInfo.mk (tracePath prev host t) (dVal dist t)) := by
  rw [buildPaths]
  exact buildPaths_fold_lookup host dist prev t ht hh dist [] (Or.inl hmem)

/-- C2: for a link-state engine whose local database is the full undirected
link graph (every recorded edge weight a finite nonnegative delay, adjacency
dicts with unique keys), and for distinct terminals `s` and `t` joined by at
least one simple path, `_dijkstra` stores for `t` an entry whose cost equals
the minimum over all simple paths from `s` to `t` of the sum of the edge
delays along the path: some simple path attains the stored cost, and no
simple path costs less. -/
theorem ls_dijkstra_shortest_c2 (top : TopDB) (s t : String)
    (hok : topOKB top = true) (hnd : innerNodupB top = true)
    (_hsh : strStartsWith1 s 'h' = true) (hth : strStartsWith1 t 'h' = true)
    (hts : t ≠ s) (hreach : ∃ p, SimplePath top s t p) :
    ∃ pi, lookupA (lsDijkstra top s) t = some pi ∧
      (∃ p, SimplePath top s t p ∧ walkCost top p = pi.cost) ∧
      (∀ p, SimplePath top s t p → pi.cost ≤ walkCost top p) := by
  obtain ⟨p0, hsp0⟩ := hreach
  unfold SimplePath at hsp0
  obtain ⟨hwk0, hhd0, hlast0, _⟩ := hsp0
  obtain ⟨hach, hopt⟩ :=
    dijkstraLoop_correct top hok hnd s [(Cost.val 0, s)] [(s, Cost.val 0)] [] []
      (dinv_init s)
  have hle0 : dVal (dijkstraLoop top [(Cost.val 0, s)] [(s, Cost.val 0)] [] []).1 t ≤
      walkCost top p0 := hopt t p0 ⟨hwk0, hhd0, hlast0⟩
  obtain ⟨q0, hq0, _⟩ := walkCost_fin_nonneg hok p0 hwk0
  have hne : dVal (dijkstraLoop top [(Cost.val 0, s)] [(s, Cost.val 0)] [] []).1 t ≠
      Cost.inf := by
    rw [hq0] at hle0
    obtain ⟨x, hx, _⟩ := Cost.le_of_le_val hle0
    rw [hx]
    exact fun hc => Cost.noConfusion hc
  obtain ⟨pw, hpw, hcw⟩ := hach t hne
  obtain ⟨p', hsp', hle'⟩ := walk_to_simple hok pw.length pw s t (le_refl _) hpw
  have hsp'' := hsp'
  unfold SimplePath at hsp''
  obtain ⟨hwk', hhd', hlast', hnd'⟩ := hsp''
  have hge' := hopt t p' ⟨hwk', hhd', hlast'⟩
  have heq' : walkCost top p' =
      dVal (dijkstraLoop top [(Cost.val 0, s)] [(s, Cost.val 0)] [] []).1 t := by
    rw [hcw] at hle'
    exact le_antisymm hle' hge'
  refine ⟨PathInfo.mk
      (tracePath (dijkstraLoop top [(Cost.val 0, s)] [(s, Cost.val 0)] [] []).2 s t)
      (dVal (dijkstraLoop top [(Cost.val 0, s)] [(s, Cost.val 0)] [] []).1 t), ?_, ?_, ?_⟩
  · show lookupA (buildPaths s (dijkstraLoop top [(Cost.val 0, s)] [(s, Cost.val 0)] [] []).1
        (dijkstraLoop top [(Cost.val 0, s)] [(s, Cost.val 0)] [] []).2) t = _
    exact buildPaths_lookup s _ _ t hts hth (mem_keys_of_dVal_ne_inf hne)
  · exact ⟨p', hsp', heq'⟩
  · intro p hp
    unfold SimplePath at hp
    obtain ⟨h1, h2, h3, _⟩ := hp
    exact hopt t p ⟨h1, h2, h3⟩

theorem ls_dijkstra_shortest_c2_witness :
    ∃ pi, lookupA
        (lsDijkstra [("h1", [("h2", Cost.val 5)]), ("h2", [("h1", Cost.val 5)])] "h1")
        "h2" = some pi ∧
      (∃ p, SimplePath [("h1", [("h2", Cost.val 5)]), ("h2", [("h1", Cost.val 5)])]
          "h1" "h2" p ∧
        walkCost [("h1", [("h2", Cost.val 5)]), ("h2", [("h1", Cost.val 5)])] p = pi.cost) ∧
      (∀ p, SimplePath [("h1", [("h2", Cost.val 5)]), ("h2", [("h1", Cost.val 5)])]
          "h1" "h2" p →
        pi.cost ≤ walkCost [("h1", [("h2", Cost.val 5)]), ("h2", [("h1", Cost.val 5)])] p) :=
  ls_dijkstra_shortest_c2 _ "h1" "h2" (by decide) (by decide) (by decide) (by decide)
    (by decide) ⟨["h1", "h2"], by decide⟩
